import Mathlib

/-!
Verification of the versioned-artifact archive of the
concourse-steampipe-resource repository (internal/archive/archive.go).

The Go code is shallowly embedded below:

* artifact bodies are byte lists (`Bytes`);
* the MD5-hex content fingerprint is an abstract parameter
  `sum : Bytes -> String` (the Go code only relies on it being a function
  of the bytes);
* the S3 client is a record of a `list` operation (ListObjectVersions)
  and a `get` operation (GetObject for a specific version), both fallible;
* the unbounded `for` loop of `S3.history` becomes a fuel-indexed
  recursion (`historyLoop`); exhausting the fuel yields the distinguished
  error `HistErr.fuel`, so termination of a run is the statement that the
  run succeeds at some finite fuel;
* the mutex in `History`/`Put` only serializes calls, so the sequential
  model drops it; `context.Context` carries no data used by the archive.

A concrete honest backend (`Store`, newest-first version list, paginated
listing with continuation markers, versioned reads, prepending writes)
models S3 itself for the end-to-end scenarios.
-/

/-- Artifact bodies: the serialized bytes handed to the archive. -/
abbrev Bytes := List Nat

/-- One object version as returned by ListObjectVersions
(`types.ObjectVersion`: key, version id, and — via GetObject — its body). -/
structure ObjVersion where
  key : String
  versionId : String
  body : Bytes
deriving DecidableEq, Repr

/-- The fields of `s3.ListObjectVersionsInput` the archive uses.
`none` markers model nil pointers; `pfx` is the Prefix parameter. -/
structure ListParams where
  pfx : String
  maxKeys : Option Nat
  keyMarker : Option String
  versionIdMarker : Option String
deriving DecidableEq, Repr

/-- The fields of a ListObjectVersions page the archive reads.
Marker strings model the Go code's dereferenced pointer values, with
the empty string standing for an absent marker. -/
structure ListPage where
  versions : List ObjVersion
  isTruncated : Bool
  nextKeyMarker : String
  nextVersionIdMarker : String
deriving DecidableEq, Repr

/-- The backend client capabilities used by `S3.history`:
list a page of object versions, and fetch one version's bytes. -/
structure Client where
  list : ListParams → Except String ListPage
  get : String → String → Except String Bytes

/-- Errors of a history walk: a backend error (carrying the wrapped
message, as in the Go code) or fuel exhaustion (the Go loop would still
be running). -/
inductive HistErr where
  | backend (msg : String)
  | fuel
deriving DecidableEq, Repr

/-- Outcome of processing the items of one page
(the inner `for _, item := range page.Versions` loop):
abort with an error, return early because the version cap was reached,
or fall through to the pagination logic. -/
inductive ItemsOut where
  | fail (msg : String) (sums : List String)
  | early (versions : List Bytes) (sums : List String)
  | cont (versions : List Bytes) (sums : List String) (n : Nat)
      (lastKey lastVid : String)
deriving DecidableEq, Repr

/-- `S3Config` from the source (bucket, key, region, max_versions).
Credentials only feed client construction and are omitted. -/
structure S3Config where
  bucket : String
  key : String
  region : String
  maxVersions : Nat
deriving DecidableEq, Repr

/-- The mutable state of an `S3` archive value: its (mutable) config,
the fingerprint set `sums` (a list used as a set), and the
`fetched` flag. -/
structure S3State where
  cfg : S3Config
  sums : List String
  fetched : Bool
deriving DecidableEq, Repr

/-- `S3.downloadObjectVersion`: fetch one version's bytes, wrapping
backend errors with the source's message prefix. -/
def downloadObjectVersion (get : String → String → Except String Bytes)
    (v : ObjVersion) : Except String Bytes :=
  match get v.key v.versionId with
  | .error e => .error ("error downloading object version: " ++ e)
  | .ok b => .ok b

/-- The inner per-item loop of `S3.history`: for each listed version,
track it as the last-seen item, skip keys different from the archive's
key, download the body, skip fingerprints already in `sums`, otherwise
append the body (newest-first accumulation) and record the fingerprint,
returning early once `maxV` entries have accumulated. -/
def walkItems (get : String → String → Except String Bytes)
    (sum : Bytes → String) (cfgKey : String) (maxV : Nat) :
    List ObjVersion → List Bytes → List String → Nat → String → String →
    ItemsOut
  | [], vs, sums, n, lk, lv => .cont vs sums n lk lv
  | it :: rest, vs, sums, n, _, _ =>
    if it.key ≠ cfgKey then
      walkItems get sum cfgKey maxV rest vs sums n it.key it.versionId
    else
      match downloadObjectVersion get it with
      | .error e => .fail e sums
      | .ok body =>
        let s := sum body
        if s ∈ sums then
          walkItems get sum cfgKey maxV rest vs sums n it.key it.versionId
        else if 0 < maxV ∧ maxV ≤ n + 1 then
          .early (vs ++ [body]) (s :: sums)
        else
          walkItems get sum cfgKey maxV rest (vs ++ [body]) (s :: sums)
            (n + 1) it.key it.versionId

/-- The paginated loop of `S3.history`, fuel-indexed. Each iteration
lists a page, processes its items, returns (reversing the accumulator to
oldest-first order) on early cutoff, on a non-truncated page or on an
empty page, and otherwise advances the continuation markers — falling
back to the last-seen item's key/version-id pair when the backend hands
back an empty `NextKeyMarker`. -/
def historyLoop (cl : Client) (sum : Bytes → String) (cfgKey : String)
    (maxV : Nat) :
    Nat → ListParams → List Bytes → List String → Nat →
    Except HistErr (List Bytes) × List String
  | 0, _, _, sums, _ => (.error .fuel, sums)
  | fuel + 1, ps, vs, sums, n =>
    match cl.list ps with
    | .error e =>
      (.error (.backend ("error listing object versions: " ++ e)), sums)
    | .ok page =>
      match walkItems cl.get sum cfgKey maxV page.versions vs sums n "" "" with
      | .fail e sums' => (.error (.backend e), sums')
      | .early vs' sums' => (.ok vs'.reverse, sums')
      | .cont vs' sums' n' lk lv =>
        if ¬ page.isTruncated ∨ page.versions.isEmpty then
          (.ok vs'.reverse, sums')
        else
          let nxt :=
            if page.nextKeyMarker = "" then (lk, lv)
            else (page.nextKeyMarker, page.nextVersionIdMarker)
          historyLoop cl sum cfgKey maxV fuel
            { ps with keyMarker := some nxt.1, versionIdMarker := some nxt.2 }
            vs' sums' n'

/-- The initial `ListObjectVersionsInput` built by `S3.history`:
prefix-scoped to the archive's key, requesting `MaxVersions` keys per
page when that is set and below the backend's page-size ceiling. -/
def initParams (cfg : S3Config) : ListParams :=
  { pfx := cfg.key
    maxKeys :=
      if 0 < cfg.maxVersions ∧ cfg.maxVersions < 1000 then
        some cfg.maxVersions
      else none
    keyMarker := none
    versionIdMarker := none }

/-- `S3.history` (and, the mutex elided, the public `S3.History`):
run the walker from fresh per-call accumulators against the instance's
persistent fingerprint set, persisting the updated set and setting the
`fetched` flag on success. -/
def S3history (cl : Client) (sum : Bytes → String) (fuel : Nat)
    (st : S3State) : Except HistErr (List Bytes) × S3State :=
  match historyLoop cl sum st.cfg.key st.cfg.maxVersions fuel
      (initParams st.cfg) [] st.sums 0 with
  | (.ok vs, sums') =>
    (.ok vs, { st with sums := sums', fetched := true })
  | (.error e, sums') => (.error e, { st with sums := sums' })

/-- A concrete honest versioned object store: versions newest-first,
plus a counter for generating fresh version ids. -/
structure Store where
  objs : List ObjVersion
  nextId : Nat
deriving DecidableEq, Repr

/-- Fresh version-id generation: an injective encoding of the store's
write counter (any injective string encoding models S3's opaque
unique version ids). -/
def vidOf (n : Nat) : String := String.mk (List.replicate (n + 1) 'v')

/-- PutObject against the concrete store: a new version of `key` is
prepended (the listing is newest-first). -/
def storePut (store : Store) (key : String) (b : Bytes) : Store :=
  { objs := ⟨key, vidOf store.nextId, b⟩ :: store.objs
    nextId := store.nextId + 1 }

/-- Prefix matching as performed by the backend's listing. -/
def pfxMatch (p s : String) : Bool := List.isPrefixOf p.data s.data

/-- Resume a newest-first listing strictly after the version identified
by the continuation marker pair. -/
def dropAfterMarker : List ObjVersion → String → String → List ObjVersion
  | [], _, _ => []
  | v :: rest, km, vm =>
    if v.key = km ∧ v.versionId = vm then rest
    else dropAfterMarker rest km vm

/-- The portion of the store's listing a request with the given
parameters still has in front of it. -/
def listRest (objs : List ObjVersion) (ps : ListParams) : List ObjVersion :=
  let all := objs.filter (fun v => pfxMatch ps.pfx v.key)
  match ps.keyMarker, ps.versionIdMarker with
  | some km, some vm => dropAfterMarker all km vm
  | _, _ => all

/-- Effective page size: the requested MaxKeys clipped to the backend's
page-size ceiling `p`. -/
def pageCap (p : Nat) (mk : Option Nat) : Nat :=
  match mk with
  | some m => min m p
  | none => p

/-- ListObjectVersions against the concrete store: one page of at most
`pageCap` versions, a truncation flag, and continuation markers naming
the last version of the page (empty when the page is empty). -/
def storeList (store : Store) (p : Nat) (ps : ListParams) :
    Except String ListPage :=
  let rest := listRest store.objs ps
  let cap := pageCap p ps.maxKeys
  let items := rest.take cap
  .ok { versions := items
        isTruncated := decide (cap < rest.length)
        nextKeyMarker := (items.getLast?).elim "" ObjVersion.key
        nextVersionIdMarker := (items.getLast?).elim "" ObjVersion.versionId }

/-- GetObject against the concrete store: look the version up by its
key and version id. -/
def storeGet (store : Store) (key vid : String) : Except String Bytes :=
  match store.objs.find? (fun v => v.key == key && v.versionId == vid) with
  | some v => .ok v.body
  | none => .error "NoSuchVersion"

/-- The client view of a concrete store with page-size ceiling `p`. -/
def storeClient (store : Store) (p : Nat) : Client :=
  { list := storeList store p
    get := storeGet store }

/-- The debug line `S3.Put` emits when the candidate fingerprint is
already present. -/
def skipMsg (s : String) : String :=
  "skipping archival of existing version: " ++ s

/-- The wrapping `S3.Put` applies to a failed bootstrap history fetch. -/
def wrapFetch : HistErr → HistErr
  | .backend e => .backend ("error fetching history: " ++ e)
  | .fuel => .fuel

/-- `S3.Put` against a concrete store: serialize (the artifact arrives
already serialized here), on a first-ever call overwrite
`cfg.MaxVersions` with 100 and bootstrap the fingerprint set via a
history fetch (a failure aborts the put), then compute the fingerprint,
log — but only log — a skip decision when it is already known, and
issue PutObject unconditionally. The fingerprint set itself is not
touched. The last component collects the skip log lines. -/
def S3Put (sum : Bytes → String) (p fuel : Nat) (b : Bytes)
    (st : S3State) (store : Store) :
    Except HistErr Unit × S3State × Store × List String :=
  let boot : Except HistErr Unit × S3State :=
    if st.fetched then (.ok (), st)
    else
      let st' := { st with cfg := { st.cfg with maxVersions := 100 } }
      match S3history (storeClient store p) sum fuel st' with
      | (.ok _, st'') => (.ok (), st'')
      | (.error e, st'') => (.error (wrapFetch e), st'')
  match boot with
  | (.error e, st') => (.error e, st', store, [])
  | (.ok _, st') =>
    let s := sum b
    let logs := if s ∈ st'.sums then [skipMsg s] else []
    (.ok (), st', storePut store st'.cfg.key b, logs)

/-- A sequence of `Put` calls, aborting at the first failure. -/
def runPuts (sum : Bytes → String) (p fuel : Nat) :
    List Bytes → S3State → Store → Except HistErr (S3State × Store)
  | [], st, store => .ok (st, store)
  | b :: rest, st, store =>
    match S3Put sum p fuel b st store with
    | (.ok _, st', store', _) => runPuts sum p fuel rest st' store'
    | (.error e, _, _, _) => .error e

/-- A freshly constructed S3 archive state (`NewS3`): empty fingerprint
set, history not yet fetched. -/
def freshState (cfg : S3Config) : S3State :=
  { cfg := cfg, sums := [], fetched := false }

/-- The empty concrete store. -/
def emptyStore : Store := { objs := [], nextId := 0 }

/-- The two archive shapes the factory can construct. -/
inductive ArchiveModel where
  | empty
  | s3 (cfg : S3Config)
deriving DecidableEq, Repr

/-- The factory `New`: dispatch on the `type` discriminator.  `NewS3`
itself only fails on ambient AWS-config loading, which carries no data
in this model, so the s3 branch constructs the archive directly. -/
def archiveNew (ty : String) (s3cfg : S3Config) :
    Except String ArchiveModel :=
  if ty = "" ∨ ty = "empty" then .ok .empty
  else if ty = "s3" then .ok (.s3 s3cfg)
  else .error ("unsupported type: " ++ ty)

/-- `Empty.History`: always the empty sequence, never an error. -/
def emptyHistory : Except String (List Bytes) := .ok []

/-- `Empty.Put`: always a no-op success. -/
def emptyPut : Except String Unit := .ok ()

/-- A concrete stand-in fingerprint function for closed scenarios. -/
def sumFn (b : Bytes) : String := toString b

/-- End-to-end scenario: a sequence of puts on a fresh archive over an
empty store, followed by one `History` call; page-size ceiling 1000 as
for real S3, fuel 1 per walk (all these walks are single-page). -/
def putsThenHistory (sum : Bytes → String) (cfg : S3Config)
    (bs : List Bytes) : Except HistErr (List Bytes) :=
  match runPuts sum 1000 1 bs (freshState cfg) emptyStore with
  | .error e => .error e
  | .ok (st, store) => (S3history (storeClient store 1000) sum 1 st).1

/-- The bodies put in the `n`-put scenario: `[0], [1], ...`. -/
def cexBodies (n : Nat) : List Bytes := (List.range n).map (fun i => [i])

/-- A fixed config with unbounded (0) configured max_versions. -/
def cexCfg : S3Config :=
  { bucket := "b", key := "k", region := "r", maxVersions := 0 }

-- Decidable equality of `Except` results, for closed-scenario proofs.
deriving instance DecidableEq for Except

/-- A simulated backend for the pagination edge case: three one-item
pages; page 2 is truncated but hands back an empty continuation marker,
so only the fallback continuation point (the last-seen item's own
key/version-id pair) reaches page 3. Every other request errors. -/
def edgeClient : Client :=
  { list := fun ps =>
      match ps.keyMarker, ps.versionIdMarker with
      | none, _ =>
        .ok { versions := [⟨"k", "va", [1]⟩], isTruncated := true
              nextKeyMarker := "k", nextVersionIdMarker := "va" }
      | some "k", some "va" =>
        .ok { versions := [⟨"k", "vb", [2]⟩], isTruncated := true
              nextKeyMarker := "", nextVersionIdMarker := "" }
      | some "k", some "vb" =>
        .ok { versions := [⟨"k", "vc", [3]⟩], isTruncated := false
              nextKeyMarker := "", nextVersionIdMarker := "" }
      | _, _ => .error "unexpected continuation marker"
    get := fun key vid =>
      match key, vid with
      | "k", "va" => .ok [1]
      | "k", "vb" => .ok [2]
      | "k", "vc" => .ok [3]
      | _, _ => .error "NoSuchVersion" }

/-- A store holding a sibling key "k2" (matched by the prefix "k") next
to the archive key "k", for the key-filtering scenario. -/
def siblingStore : Store :=
  { objs := [⟨"k2", "va", [9]⟩, ⟨"k", "vb", [1]⟩, ⟨"k2", "vc", [8]⟩]
    nextId := 3 }

/-- The versions of a listing whose object key equals the archive key
exactly (the ones `S3.history` does not skip). -/
def keyMatches (cfgKey : String) (items : List ObjVersion) :
    List ObjVersion :=
  items.filter (fun it => it.key == cfgKey)

/-- The last-seen key/version-id pair after scanning `items`, starting
from the given pair — the value the `lastKey, lastVersionID` variables
hold after the inner loop. -/
def lastKeyVid : List ObjVersion → String × String → String × String
  | [], p => p
  | it :: rest, _ => lastKeyVid rest (it.key, it.versionId)

/-- The bodies of a list of versions, in listing order. -/
def bodiesOf (items : List ObjVersion) : List Bytes :=
  items.map ObjVersion.body

/-- The fingerprints of the bodies of a list of versions. -/
def sumsOf (sum : Bytes → String) (items : List ObjVersion) : List String :=
  items.map (fun it => sum it.body)

/-- The store left behind by a sequence of writes of the given bodies
(oldest first) under one key. -/
def storeAfterPuts (key : String) : List Bytes → Store → Store
  | [], store => store
  | b :: rest, store => storeAfterPuts key rest (storePut store key b)

/-- The newest-first version listing produced by writing the given
bodies (oldest first) under one key with fresh ids from `start`. -/
def putObjs (key : String) : List Bytes → Nat → List ObjVersion
  | [], _ => []
  | b :: rest, start => putObjs key rest (start + 1) ++ [⟨key, vidOf start, b⟩]

/-! ## Lemmas about the inner item loop -/

/-- Unfolding: a key-mismatched item is skipped (only the last-seen
pair advances). -/
theorem walkItems_cons_skipKey (get : String → String → Except String Bytes)
    (sum : Bytes → String) (cfgKey : String) (maxV : Nat)
    (it : ObjVersion) (rest : List ObjVersion) (vs : List Bytes)
    (sums : List String) (n : Nat) (lk lv : String)
    (hk : it.key ≠ cfgKey) :
    walkItems get sum cfgKey maxV (it :: rest) vs sums n lk lv =
      walkItems get sum cfgKey maxV rest vs sums n it.key it.versionId := by
  simp [walkItems, hk]

/-- Unfolding: a matching item with a fresh fingerprint is appended and
the loop continues when the cap is not yet reached. -/
theorem walkItems_cons_fresh (get : String → String → Except String Bytes)
    (sum : Bytes → String) (cfgKey : String) (maxV : Nat)
    (it : ObjVersion) (rest : List ObjVersion) (vs : List Bytes)
    (sums : List String) (n : Nat) (lk lv : String) {body : Bytes}
    (hk : it.key = cfgKey)
    (hdl : get it.key it.versionId = .ok body)
    (hmem : sum body ∉ sums)
    (hearly : ¬ (0 < maxV ∧ maxV ≤ n + 1)) :
    walkItems get sum cfgKey maxV (it :: rest) vs sums n lk lv =
      walkItems get sum cfgKey maxV rest (vs ++ [body])
        (sum body :: sums) (n + 1) it.key it.versionId := by
  have hdl' : get cfgKey it.versionId = .ok body := by
    rw [← hk]; exact hdl
  simp [walkItems, hk, downloadObjectVersion, hdl', hmem, hearly]

/-- Unfolding: a matching fresh item that brings the count to the cap
triggers the early return. -/
theorem walkItems_cons_early (get : String → String → Except String Bytes)
    (sum : Bytes → String) (cfgKey : String) (maxV : Nat)
    (it : ObjVersion) (rest : List ObjVersion) (vs : List Bytes)
    (sums : List String) (n : Nat) (lk lv : String) {body : Bytes}
    (hk : it.key = cfgKey)
    (hdl : get it.key it.versionId = .ok body)
    (hmem : sum body ∉ sums)
    (hearly : 0 < maxV ∧ maxV ≤ n + 1) :
    walkItems get sum cfgKey maxV (it :: rest) vs sums n lk lv =
      .early (vs ++ [body]) (sum body :: sums) := by
  have hdl' : get cfgKey it.versionId = .ok body := by
    rw [← hk]; exact hdl
  simp [walkItems, hk, downloadObjectVersion, hdl', hmem, hearly]

/-- Unfolding: a matching item whose fingerprint is already known is
skipped. -/
theorem walkItems_cons_dup (get : String → String → Except String Bytes)
    (sum : Bytes → String) (cfgKey : String) (maxV : Nat)
    (it : ObjVersion) (rest : List ObjVersion) (vs : List Bytes)
    (sums : List String) (n : Nat) (lk lv : String) {body : Bytes}
    (hk : it.key = cfgKey)
    (hdl : get it.key it.versionId = .ok body)
    (hmem : sum body ∈ sums) :
    walkItems get sum cfgKey maxV (it :: rest) vs sums n lk lv =
      walkItems get sum cfgKey maxV rest vs sums n it.key it.versionId := by
  have hdl' : get cfgKey it.versionId = .ok body := by
    rw [← hk]; exact hdl
  simp [walkItems, hk, downloadObjectVersion, hdl', hmem]

/-- Processing a clean page: when every key-matching item's download
succeeds, the matching fingerprints are pairwise distinct and fresh, and
the counter has not yet reached the cap, the inner loop appends exactly
the key-matching bodies — cut to `maxV - n` of them, with an early
return, when the cap falls inside the page. -/
theorem walkItems_spec (get : String → String → Except String Bytes)
    (sum : Bytes → String) (cfgKey : String) (maxV : Nat)
    (items : List ObjVersion) (vs : List Bytes) (sums : List String)
    (n : Nat) (lk lv : String)
    (hget : ∀ it ∈ items, it.key = cfgKey →
      get it.key it.versionId = .ok it.body)
    (hdist : (sumsOf sum (keyMatches cfgKey items)).Nodup)
    (hfresh : ∀ it ∈ items, it.key = cfgKey → sum it.body ∉ sums)
    (hn : maxV = 0 ∨ n < maxV) :
    walkItems get sum cfgKey maxV items vs sums n lk lv =
      if 0 < maxV ∧ maxV ≤ n + (keyMatches cfgKey items).length then
        .early
          (vs ++ bodiesOf ((keyMatches cfgKey items).take (maxV - n)))
          ((sumsOf sum ((keyMatches cfgKey items).take (maxV - n))).reverse
            ++ sums)
      else
        .cont (vs ++ bodiesOf (keyMatches cfgKey items))
          ((sumsOf sum (keyMatches cfgKey items)).reverse ++ sums)
          (n + (keyMatches cfgKey items).length)
          (lastKeyVid items (lk, lv)).1 (lastKeyVid items (lk, lv)).2 := by
  induction items generalizing vs sums n lk lv with
  | nil =>
    have hc : ¬ (0 < maxV ∧ maxV ≤ n) := by omega
    simp [walkItems, keyMatches, sumsOf, bodiesOf, lastKeyVid, hc]
  | cons it rest ih =>
    by_cases hk : it.key = cfgKey
    · have hdl : get it.key it.versionId = .ok it.body :=
        hget it (by simp) hk
      have hmem : sum it.body ∉ sums := hfresh it (by simp) hk
      have hms : keyMatches cfgKey (it :: rest) =
          it :: keyMatches cfgKey rest := by
        simp [keyMatches, hk]
      rw [hms] at hdist
      simp only [sumsOf, List.map_cons, List.nodup_cons] at hdist
      by_cases hearly : 0 < maxV ∧ maxV ≤ n + 1
      · -- the cap is hit on this very item
        have hcond : 0 < maxV ∧
            maxV ≤ n + (keyMatches cfgKey (it :: rest)).length := by
          rw [hms]; simp only [List.length_cons]; omega
        have htake : (keyMatches cfgKey (it :: rest)).take (maxV - n) =
            [it] := by
          rw [hms]
          have h1 : maxV - n = 1 := by omega
          simp [h1]
        rw [if_pos hcond, htake,
          walkItems_cons_early get sum cfgKey maxV it rest vs sums n lk lv
            hk hdl hmem hearly]
        simp [sumsOf, bodiesOf]
      · -- no early return on this item: recurse
        have hn' : maxV = 0 ∨ n + 1 < maxV := by omega
        have hfresh' : ∀ x ∈ rest, x.key = cfgKey →
            sum x.body ∉ sum it.body :: sums := by
          intro x hx hxk
          simp only [List.mem_cons]
          push_neg
          refine ⟨fun hEq => hdist.1 ?_, hfresh x (by simp [hx]) hxk⟩
          rw [← hEq]
          simp only [sumsOf] at *
          exact List.mem_map_of_mem _ (by simp [keyMatches, hx, hxk])
        have hget' : ∀ x ∈ rest, x.key = cfgKey →
            get x.key x.versionId = .ok x.body := by
          intro x hx; exact hget x (by simp [hx])
        rw [walkItems_cons_fresh get sum cfgKey maxV it rest vs sums n lk lv
            hk hdl hmem hearly,
          ih (vs ++ [it.body]) (sum it.body :: sums) (n + 1)
            it.key it.versionId hget' hdist.2 hfresh' hn', hms]
        by_cases hcond : 0 < maxV ∧
            maxV ≤ n + (it :: keyMatches cfgKey rest).length
        · have hcond' : 0 < maxV ∧
              maxV ≤ n + 1 + (keyMatches cfgKey rest).length := by
            simp only [List.length_cons] at hcond
            omega
          rw [if_pos hcond', if_pos hcond]
          have htk : (it :: keyMatches cfgKey rest).take (maxV - n) =
              it :: (keyMatches cfgKey rest).take (maxV - (n + 1)) := by
            have h1 : maxV - n = (maxV - (n + 1)) + 1 := by omega
            rw [h1]
            simp
          rw [htk]
          simp [sumsOf, bodiesOf]
        · have hcond' : ¬ (0 < maxV ∧
              maxV ≤ n + 1 + (keyMatches cfgKey rest).length) := by
            simp only [List.length_cons] at hcond
            omega
          rw [if_neg hcond', if_neg hcond]
          simp [ItemsOut.cont.injEq, sumsOf, bodiesOf, lastKeyVid]
          omega
    · -- key mismatch: the item is skipped entirely
      have hms : keyMatches cfgKey (it :: rest) = keyMatches cfgKey rest := by
        simp [keyMatches, hk]
      have hget' : ∀ x ∈ rest, x.key = cfgKey →
          get x.key x.versionId = .ok x.body := by
        intro x hx; exact hget x (by simp [hx])
      have hfresh' : ∀ x ∈ rest, x.key = cfgKey → sum x.body ∉ sums := by
        intro x hx; exact hfresh x (by simp [hx])
      have hdist' : (sumsOf sum (keyMatches cfgKey rest)).Nodup := by
        rwa [hms] at hdist
      rw [walkItems_cons_skipKey get sum cfgKey maxV it rest vs sums n lk lv
          hk,
        ih vs sums n it.key it.versionId hget' hdist' hfresh' hn, hms]
      simp [lastKeyVid]

/-- The inner loop processes a concatenation left to right, threading
the accumulators, and a failure or early return in the left part
discards the right part. -/
theorem walkItems_append (get : String → String → Except String Bytes)
    (sum : Bytes → String) (cfgKey : String) (maxV : Nat)
    (xs ys : List ObjVersion) :
    ∀ (vs : List Bytes) (sums : List String) (n : Nat) (lk lv : String),
    walkItems get sum cfgKey maxV (xs ++ ys) vs sums n lk lv =
      match walkItems get sum cfgKey maxV xs vs sums n lk lv with
      | .fail e sums' => .fail e sums'
      | .early vs' sums' => .early vs' sums'
      | .cont vs' sums' n' lk' lv' =>
        walkItems get sum cfgKey maxV ys vs' sums' n' lk' lv' := by
  induction xs with
  | nil => intro vs sums n lk lv; simp [walkItems]
  | cons it rest ih =>
    intro vs sums n lk lv
    by_cases hk : it.key = cfgKey
    · rcases hdl : get it.key it.versionId with e | body
      · have h1 : get cfgKey it.versionId = .error e := by
          rw [← hk]; exact hdl
        simp [walkItems, hk, downloadObjectVersion, h1]
      · have h1 : get cfgKey it.versionId = .ok body := by
          rw [← hk]; exact hdl
        by_cases hmem : sum body ∈ sums
        · simp only [List.cons_append]
          simp [walkItems, hk, downloadObjectVersion, h1, hmem, ih]
        · by_cases hearly : 0 < maxV ∧ maxV ≤ n + 1
          · simp only [List.cons_append]
            simp [walkItems, hk, downloadObjectVersion, h1, hmem, hearly]
          · simp only [List.cons_append]
            simp [walkItems, hk, downloadObjectVersion, h1, hmem, hearly, ih]
    · simp only [List.cons_append]
      simp [walkItems, hk, ih]

/-- Unfolding: a matching item whose download fails aborts the inner
loop with the wrapped error, preserving the fingerprint set. -/
theorem walkItems_cons_fail (get : String → String → Except String Bytes)
    (sum : Bytes → String) (cfgKey : String) (maxV : Nat)
    (it : ObjVersion) (rest : List ObjVersion) (vs : List Bytes)
    (sums : List String) (n : Nat) (lk lv : String) (e : String)
    (hk : it.key = cfgKey)
    (hdl : get it.key it.versionId = .error e) :
    walkItems get sum cfgKey maxV (it :: rest) vs sums n lk lv =
      .fail ("error downloading object version: " ++ e) sums := by
  have hdl' : get cfgKey it.versionId = .error e := by
    rw [← hk]; exact hdl
  simp [walkItems, hk, downloadObjectVersion, hdl']

/-- The inner loop never calls `get` on a key other than the archive's:
two get functions agreeing on the archive key drive identical runs. -/
theorem walkItems_congr_get (g g' : String → String → Except String Bytes)
    (sum : Bytes → String) (cfgKey : String) (maxV : Nat)
    (hgg : ∀ vid, g cfgKey vid = g' cfgKey vid) :
    ∀ (items : List ObjVersion) (vs : List Bytes) (sums : List String)
      (n : Nat) (lk lv : String),
    walkItems g sum cfgKey maxV items vs sums n lk lv =
      walkItems g' sum cfgKey maxV items vs sums n lk lv := by
  intro items
  induction items with
  | nil => intro vs sums n lk lv; simp [walkItems]
  | cons it rest ih =>
    intro vs sums n lk lv
    by_cases hk : it.key = cfgKey
    · have h1 : g it.key it.versionId = g' it.key it.versionId := by
        rw [hk]; exact hgg it.versionId
      simp only [walkItems, hk]
      rw [show downloadObjectVersion g it = downloadObjectVersion g' it by
        simp [downloadObjectVersion, h1]]
      rcases hdl : downloadObjectVersion g' it with e | body
      · simp
      · simp only []
        by_cases hmem : sum body ∈ sums
        · simp [hmem, ih]
        · by_cases hearly : 0 < maxV ∧ maxV ≤ n + 1
          · simp [hmem, hearly]
          · simp [hmem, hearly, ih]
    · simp [walkItems, hk, ih]

/-- When the inner loop falls through, the reported last-seen pair is
the one obtained by scanning every listed item (matching or not). -/
theorem walkItems_cont_last (get : String → String → Except String Bytes)
    (sum : Bytes → String) (cfgKey : String) (maxV : Nat) :
    ∀ (items : List ObjVersion) (vs : List Bytes) (sums : List String)
      (n : Nat) (lk0 lv0 : String) (vs' : List Bytes) (sums' : List String)
      (n' : Nat) (lk lv : String),
    walkItems get sum cfgKey maxV items vs sums n lk0 lv0 =
      .cont vs' sums' n' lk lv →
    (lk, lv) = lastKeyVid items (lk0, lv0) := by
  intro items
  induction items with
  | nil =>
    intro vs sums n lk0 lv0 vs' sums' n' lk lv h
    simp only [walkItems, ItemsOut.cont.injEq] at h
    simp [lastKeyVid, h.2.2.2.1, h.2.2.2.2]
  | cons it rest ih =>
    intro vs sums n lk0 lv0 vs' sums' n' lk lv h
    by_cases hk : it.key = cfgKey
    · rcases hdl : get it.key it.versionId with e | body
      · rw [walkItems_cons_fail get sum cfgKey maxV it rest vs sums n lk0 lv0
          e hk hdl] at h
        exact absurd h (by simp)
      · have hdl' : get cfgKey it.versionId = .ok body := by
          rw [← hk]; exact hdl
        by_cases hmem : sum body ∈ sums
        · simp only [walkItems, hk, downloadObjectVersion, hdl'] at h
          simp only [if_neg (by simp : ¬ (cfgKey ≠ cfgKey)), hmem,
            if_pos] at h
          exact (ih _ _ _ _ _ _ _ _ _ _ h).trans (by simp [lastKeyVid, hk])
        · by_cases hearly : 0 < maxV ∧ maxV ≤ n + 1
          · simp only [walkItems, hk, downloadObjectVersion, hdl'] at h
            simp only [if_neg (by simp : ¬ (cfgKey ≠ cfgKey)), hmem,
              if_neg, if_pos hearly] at h
            exact absurd h (by simp)
          · simp only [walkItems, hk, downloadObjectVersion, hdl'] at h
            simp only [if_neg (by simp : ¬ (cfgKey ≠ cfgKey)), hmem,
              if_neg, if_neg hearly] at h
            simp only [if_false] at h
            exact (ih _ _ _ _ _ _ _ _ _ _ h).trans
              (by simp [lastKeyVid, hk])
    · rw [walkItems_cons_skipKey get sum cfgKey maxV it rest vs sums n
        lk0 lv0 hk] at h
      exact (ih _ _ _ _ _ _ _ _ _ _ h).trans (by simp [lastKeyVid])

/-- Dedup invariant of the inner loop: starting from an accumulator
whose fingerprints are pairwise distinct and all recorded in the set,
any early or fall-through outcome again has pairwise distinct
fingerprints, all recorded. -/
theorem walkItems_nodup_inv (get : String → String → Except String Bytes)
    (sum : Bytes → String) (cfgKey : String) (maxV : Nat) :
    ∀ (items : List ObjVersion) (vs : List Bytes) (sums : List String)
      (n : Nat) (lk lv : String),
    (vs.map sum).Nodup → (∀ b ∈ vs, sum b ∈ sums) →
    (∀ vs' sums', walkItems get sum cfgKey maxV items vs sums n lk lv =
        .early vs' sums' →
      (vs'.map sum).Nodup ∧ ∀ b ∈ vs', sum b ∈ sums') ∧
    (∀ vs' sums' n' lk' lv',
      walkItems get sum cfgKey maxV items vs sums n lk lv =
        .cont vs' sums' n' lk' lv' →
      (vs'.map sum).Nodup ∧ ∀ b ∈ vs', sum b ∈ sums') := by
  intro items
  induction items with
  | nil =>
    intro vs sums n lk lv hvs hmem
    refine ⟨fun vs' sums' h => absurd h (by simp [walkItems]), ?_⟩
    intro vs' sums' n' lk' lv' h
    simp only [walkItems, ItemsOut.cont.injEq] at h
    rw [← h.1, ← h.2.1]
    exact ⟨hvs, hmem⟩
  | cons it rest ih =>
    intro vs sums n lk lv hvs hmem
    by_cases hk : it.key = cfgKey
    · rcases hdl : get it.key it.versionId with e | body
      · rw [walkItems_cons_fail get sum cfgKey maxV it rest vs sums n lk lv
          e hk hdl]
        exact ⟨fun _ _ h => absurd h (by simp),
          fun _ _ _ _ _ h => absurd h (by simp)⟩
      · by_cases hmem2 : sum body ∈ sums
        · rw [walkItems_cons_dup get sum cfgKey maxV it rest vs sums n lk lv
            hk hdl hmem2]
          exact ih vs sums n it.key it.versionId hvs hmem
        · have hvs' : ((vs ++ [body]).map sum).Nodup := by
            simp only [List.map_append, List.map_cons, List.map_nil]
            rw [List.nodup_append]
            refine ⟨hvs, List.nodup_singleton _, ?_⟩
            intro x hx
            simp only [List.mem_singleton]
            intro hxb
            rw [hxb] at hx
            obtain ⟨b, hb, hsb⟩ := List.mem_map.mp hx
            exact hmem2 (hsb ▸ hmem b hb)
          have hmem' : ∀ b ∈ vs ++ [body], sum b ∈ sum body :: sums := by
            intro b hb
            rcases List.mem_append.mp hb with h1 | h1
            · exact List.mem_cons_of_mem _ (hmem b h1)
            · simp only [List.mem_singleton] at h1
              rw [h1]
              exact List.mem_cons_self _ _
          by_cases hearly : 0 < maxV ∧ maxV ≤ n + 1
          · rw [walkItems_cons_early get sum cfgKey maxV it rest vs sums n
              lk lv hk hdl hmem2 hearly]
            refine ⟨?_, fun _ _ _ _ _ h => absurd h (by simp)⟩
            intro vs' sums' h
            simp only [ItemsOut.early.injEq] at h
            rw [← h.1, ← h.2]
            exact ⟨hvs', hmem'⟩
          · rw [walkItems_cons_fresh get sum cfgKey maxV it rest vs sums n
              lk lv hk hdl hmem2 hearly]
            exact ih (vs ++ [body]) (sum body :: sums) (n + 1)
              it.key it.versionId hvs' hmem'
    · rw [walkItems_cons_skipKey get sum cfgKey maxV it rest vs sums n lk lv
        hk]
      exact ih vs sums n it.key it.versionId hvs hmem

/-- Counter invariant of the inner loop: the accumulator length always
equals the counter, an early return carries exactly `maxV` entries, and
a fall-through stays strictly below the cap (when one is set). -/
theorem walkItems_len_inv (get : String → String → Except String Bytes)
    (sum : Bytes → String) (cfgKey : String) (maxV : Nat) :
    ∀ (items : List ObjVersion) (vs : List Bytes) (sums : List String)
      (n : Nat) (lk lv : String),
    vs.length = n → (maxV = 0 ∨ n < maxV) →
    (∀ vs' sums', walkItems get sum cfgKey maxV items vs sums n lk lv =
        .early vs' sums' → vs'.length = maxV) ∧
    (∀ vs' sums' n' lk' lv',
      walkItems get sum cfgKey maxV items vs sums n lk lv =
        .cont vs' sums' n' lk' lv' →
      vs'.length = n' ∧ (maxV = 0 ∨ n' < maxV)) := by
  intro items
  induction items with
  | nil =>
    intro vs sums n lk lv hlen hn
    refine ⟨fun vs' sums' h => absurd h (by simp [walkItems]), ?_⟩
    intro vs' sums' n' lk' lv' h
    simp only [walkItems, ItemsOut.cont.injEq] at h
    rw [← h.1, ← h.2.2.1]
    exact ⟨hlen, hn⟩
  | cons it rest ih =>
    intro vs sums n lk lv hlen hn
    by_cases hk : it.key = cfgKey
    · rcases hdl : get it.key it.versionId with e | body
      · rw [walkItems_cons_fail get sum cfgKey maxV it rest vs sums n lk lv
          e hk hdl]
        exact ⟨fun _ _ h => absurd h (by simp),
          fun _ _ _ _ _ h => absurd h (by simp)⟩
      · by_cases hmem2 : sum body ∈ sums
        · rw [walkItems_cons_dup get sum cfgKey maxV it rest vs sums n lk lv
            hk hdl hmem2]
          exact ih vs sums n it.key it.versionId hlen hn
        · by_cases hearly : 0 < maxV ∧ maxV ≤ n + 1
          · rw [walkItems_cons_early get sum cfgKey maxV it rest vs sums n
              lk lv hk hdl hmem2 hearly]
            refine ⟨?_, fun _ _ _ _ _ h => absurd h (by simp)⟩
            intro vs' sums' h
            simp only [ItemsOut.early.injEq] at h
            rw [← h.1]
            simp only [List.length_append, List.length_singleton, hlen]
            omega
          · rw [walkItems_cons_fresh get sum cfgKey maxV it rest vs sums n
              lk lv hk hdl hmem2 hearly]
            exact ih (vs ++ [body]) (sum body :: sums) (n + 1)
              it.key it.versionId (by simp [hlen]) (by omega)
    · rw [walkItems_cons_skipKey get sum cfgKey maxV it rest vs sums n lk lv
        hk]
      exact ih vs sums n it.key it.versionId hlen hn

/-! ## Lemmas about the paginated loop -/

/-- Any successful history walk, over any backend behavior, from any
state whose accumulator fingerprints are distinct and recorded, yields
a sequence with pairwise distinct fingerprints. -/
theorem historyLoop_nodup (cl : Client) (sum : Bytes → String)
    (cfgKey : String) (maxV : Nat) :
    ∀ (fuel : Nat) (ps : ListParams) (vs : List Bytes)
      (sums : List String) (n : Nat),
    (vs.map sum).Nodup → (∀ b ∈ vs, sum b ∈ sums) →
    ∀ out sums',
      historyLoop cl sum cfgKey maxV fuel ps vs sums n = (.ok out, sums') →
      (out.map sum).Nodup := by
  intro fuel
  induction fuel with
  | zero =>
    intro ps vs sums n _ _ out sums' h
    exact absurd h (by simp [historyLoop])
  | succ fuel ih =>
    intro ps vs sums n hvs hmem out sums' h
    rcases hl : cl.list ps with e | page
    · simp only [historyLoop, hl] at h
      exact absurd h (by simp)
    · simp only [historyLoop, hl] at h
      rcases hw : walkItems cl.get sum cfgKey maxV page.versions vs sums n
          "" "" with ⟨e', s1⟩ | ⟨vs', s'⟩ | ⟨vs', s', n', lk, lv⟩
      · simp only [hw] at h
        exact absurd h (by simp)
      · simp only [hw] at h
        simp only [Prod.mk.injEq, Except.ok.injEq] at h
        rw [← h.1, List.map_reverse, List.nodup_reverse]
        exact ((walkItems_nodup_inv cl.get sum cfgKey maxV page.versions vs
          sums n "" "" hvs hmem).1 vs' s' hw).1
      · simp only [hw] at h
        have hinv := (walkItems_nodup_inv cl.get sum cfgKey maxV
          page.versions vs sums n "" "" hvs hmem).2 vs' s' n' lk lv hw
        by_cases hend : ¬ page.isTruncated ∨ page.versions.isEmpty
        · rw [if_pos hend] at h
          simp only [Prod.mk.injEq, Except.ok.injEq] at h
          rw [← h.1, List.map_reverse, List.nodup_reverse]
          exact hinv.1
        · rw [if_neg hend] at h
          exact ih _ vs' s' n' hinv.1 hinv.2 out sums' h

/-- Cap enforcement at loop level: when a positive cap is set, any
successful walk starting below the cap returns at most `maxV`
entries. -/
theorem historyLoop_len (cl : Client) (sum : Bytes → String)
    (cfgKey : String) (maxV : Nat) :
    ∀ (fuel : Nat) (ps : ListParams) (vs : List Bytes)
      (sums : List String) (n : Nat),
    vs.length = n → (maxV = 0 ∨ n < maxV) → 0 < maxV →
    ∀ out sums',
      historyLoop cl sum cfgKey maxV fuel ps vs sums n = (.ok out, sums') →
      out.length ≤ maxV := by
  intro fuel
  induction fuel with
  | zero =>
    intro ps vs sums n _ _ _ out sums' h
    exact absurd h (by simp [historyLoop])
  | succ fuel ih =>
    intro ps vs sums n hlen hn hpos out sums' h
    rcases hl : cl.list ps with e | page
    · simp only [historyLoop, hl] at h
      exact absurd h (by simp)
    · simp only [historyLoop, hl] at h
      rcases hw : walkItems cl.get sum cfgKey maxV page.versions vs sums n
          "" "" with ⟨e', s1⟩ | ⟨vs', s'⟩ | ⟨vs', s', n', lk, lv⟩
      · simp only [hw] at h
        exact absurd h (by simp)
      · simp only [hw] at h
        simp only [Prod.mk.injEq, Except.ok.injEq] at h
        rw [← h.1, List.length_reverse]
        rw [(walkItems_len_inv cl.get sum cfgKey maxV page.versions vs
          sums n "" "" hlen hn).1 vs' s' hw]
      · simp only [hw] at h
        have hinv := (walkItems_len_inv cl.get sum cfgKey maxV
          page.versions vs sums n "" "" hlen hn).2 vs' s' n' lk lv hw
        by_cases hend : ¬ page.isTruncated ∨ page.versions.isEmpty
        · rw [if_pos hend] at h
          simp only [Prod.mk.injEq, Except.ok.injEq] at h
          rw [← h.1, List.length_reverse, hinv.1]
          omega
        · rw [if_neg hend] at h
          exact ih _ vs' s' n' hinv.1 hinv.2 hpos out sums' h

/-- The paginated loop never consults `get` outside the archive key:
two clients with the same listing behavior whose get functions agree on
the archive key produce identical walks. -/
theorem historyLoop_congr_get (l : ListParams → Except String ListPage)
    (g g' : String → String → Except String Bytes)
    (sum : Bytes → String) (cfgKey : String) (maxV : Nat)
    (hgg : ∀ vid, g cfgKey vid = g' cfgKey vid) :
    ∀ (fuel : Nat) (ps : ListParams) (vs : List Bytes)
      (sums : List String) (n : Nat),
    historyLoop ⟨l, g⟩ sum cfgKey maxV fuel ps vs sums n =
      historyLoop ⟨l, g'⟩ sum cfgKey maxV fuel ps vs sums n := by
  intro fuel
  induction fuel with
  | zero => intro ps vs sums n; rfl
  | succ fuel ih =>
    intro ps vs sums n
    rcases hl : l ps with e | page
    · simp only [historyLoop, hl]
    · simp only [historyLoop, hl]
      rw [show walkItems (Client.mk l g).get sum cfgKey maxV page.versions
          vs sums n "" "" =
        walkItems (Client.mk l g').get sum cfgKey maxV page.versions
          vs sums n "" "" from
        walkItems_congr_get g g' sum cfgKey maxV hgg page.versions
          vs sums n "" ""]
      rcases hw : walkItems (Client.mk l g').get sum cfgKey maxV
          page.versions vs sums n "" ""
          with ⟨e', s1⟩ | ⟨vs', s'⟩ | ⟨vs', s', n', lk, lv⟩
      · rfl
      · rfl
      · dsimp only
        by_cases hend : ¬ page.isTruncated ∨ page.versions.isEmpty
        · rw [if_pos hend, if_pos hend]
        · rw [if_neg hend, if_neg hend]
          exact ih _ vs' s' n'

/-- Fuel monotonicity: a walk that completes (successfully or with a
backend error) at some fuel completes identically at any larger
fuel. -/
theorem historyLoop_fuel_mono (cl : Client) (sum : Bytes → String)
    (cfgKey : String) (maxV : Nat) :
    ∀ (fuel : Nat) (ps : ListParams) (vs : List Bytes)
      (sums : List String) (n : Nat) (r : Except HistErr (List Bytes))
      (sums' : List String),
    r ≠ .error .fuel →
    historyLoop cl sum cfgKey maxV fuel ps vs sums n = (r, sums') →
    ∀ f, fuel ≤ f →
      historyLoop cl sum cfgKey maxV f ps vs sums n = (r, sums') := by
  intro fuel
  induction fuel with
  | zero =>
    intro ps vs sums n r sums' hr h f _
    simp only [historyLoop, Prod.mk.injEq] at h
    exact absurd h.1.symm hr
  | succ fuel ih =>
    intro ps vs sums n r sums' hr h f hf
    obtain ⟨f', rfl⟩ : ∃ f', f = f' + 1 := ⟨f - 1, by omega⟩
    have hf' : fuel ≤ f' := by omega
    rcases hl : cl.list ps with e | page
    · simp only [historyLoop, hl] at h
      simp only [historyLoop, hl]
      exact h
    · simp only [historyLoop, hl] at h
      simp only [historyLoop, hl]
      rcases hw : walkItems cl.get sum cfgKey maxV page.versions vs sums n
          "" "" with ⟨e', s1⟩ | ⟨vs', s'⟩ | ⟨vs', s', n', lk, lv⟩
      · simp only [hw] at h
        simp only [hw]
        exact h
      · simp only [hw] at h
        simp only [hw]
        exact h
      · simp only [hw] at h
        simp only [hw]
        by_cases hend : ¬ page.isTruncated ∨ page.versions.isEmpty
        · rw [if_pos hend] at h
          rw [if_pos hend]
          exact h
        · rw [if_neg hend] at h
          rw [if_neg hend]
          exact ih _ vs' s' n' r sums' hr h f' hf'

/-- A listing failure on the page the loop is about to fetch aborts the
whole call with the wrapped backend error (and no result sequence),
whatever was already accumulated. -/
theorem historyLoop_list_error (cl : Client) (sum : Bytes → String)
    (cfgKey : String) (maxV : Nat) (fuel : Nat) (ps : ListParams)
    (vs : List Bytes) (sums : List String) (n : Nat) (e : String)
    (hl : cl.list ps = .error e) :
    historyLoop cl sum cfgKey maxV (fuel + 1) ps vs sums n =
      (.error (.backend ("error listing object versions: " ++ e)), sums) := by
  simp only [historyLoop, hl]

/-- A download failure on a key-matching item of the fetched page (after
a clean run up to it) aborts the whole call with the wrapped backend
error and no result sequence. -/
theorem historyLoop_get_error (cl : Client) (sum : Bytes → String)
    (cfgKey : String) (maxV : Nat) (fuel : Nat) (ps : ListParams)
    (vs : List Bytes) (sums : List String) (n : Nat) (e : String)
    (page : ListPage) (pre : List ObjVersion) (bad : ObjVersion)
    (rest : List ObjVersion)
    (hl : cl.list ps = .ok page)
    (hpage : page.versions = pre ++ bad :: rest)
    (hget : ∀ it ∈ pre, it.key = cfgKey →
      cl.get it.key it.versionId = .ok it.body)
    (hdist : (sumsOf sum (keyMatches cfgKey pre)).Nodup)
    (hfresh : ∀ it ∈ pre, it.key = cfgKey → sum it.body ∉ sums)
    (hn : maxV = 0 ∨ n + (keyMatches cfgKey pre).length < maxV)
    (hbadkey : bad.key = cfgKey)
    (hbad : cl.get bad.key bad.versionId = .error e) :
    historyLoop cl sum cfgKey maxV (fuel + 1) ps vs sums n =
      (.error (.backend ("error downloading object version: " ++ e)),
       (sumsOf sum (keyMatches cfgKey pre)).reverse ++ sums) := by
  have hn0 : maxV = 0 ∨ n < maxV := by omega
  have hcond : ¬ (0 < maxV ∧
      maxV ≤ n + (keyMatches cfgKey pre).length) := by omega
  have hpre := walkItems_spec cl.get sum cfgKey maxV pre vs sums n "" ""
    hget hdist hfresh hn0
  rw [if_neg hcond] at hpre
  have hwalk : walkItems cl.get sum cfgKey maxV page.versions vs sums n
      "" "" =
      .fail ("error downloading object version: " ++ e)
        ((sumsOf sum (keyMatches cfgKey pre)).reverse ++ sums) := by
    rw [hpage, walkItems_append, hpre]
    dsimp only
    rw [walkItems_cons_fail cl.get sum cfgKey maxV bad rest _ _ _ _ _ e
      hbadkey hbad]
  simp only [historyLoop, hl, hwalk]

/-- The empty-continuation-marker edge case: on a truncated, nonempty
page whose `NextKeyMarker` comes back empty, the loop continues with the
last-seen item's own key/version-id pair as the continuation point. -/
theorem historyLoop_fallback (cl : Client) (sum : Bytes → String)
    (cfgKey : String) (maxV : Nat) (fuel : Nat) (ps : ListParams)
    (vs : List Bytes) (sums : List String) (n : Nat) (page : ListPage)
    (vs' : List Bytes) (sums' : List String) (n' : Nat) (lk lv : String)
    (hl : cl.list ps = .ok page)
    (hw : walkItems cl.get sum cfgKey maxV page.versions vs sums n "" "" =
      .cont vs' sums' n' lk lv)
    (htr : page.isTruncated = true)
    (hne : page.versions ≠ [])
    (hmark : page.nextKeyMarker = "") :
    historyLoop cl sum cfgKey maxV (fuel + 1) ps vs sums n =
      historyLoop cl sum cfgKey maxV fuel
        { ps with keyMarker := some lk, versionIdMarker := some lv }
        vs' sums' n'
    ∧ (lk, lv) = lastKeyVid page.versions ("", "") := by
  refine ⟨?_, walkItems_cont_last cl.get sum cfgKey maxV page.versions
    vs sums n "" "" vs' sums' n' lk lv hw⟩
  have hcond : ¬ (¬ page.isTruncated ∨ page.versions.isEmpty) := by
    simp [htr, List.isEmpty_iff, hne]
  simp only [historyLoop, hl, hw]
  rw [if_neg hcond, if_pos hmark]

/-- `S3.History` yields no two entries with the same fingerprint, over
any backend behavior, any fuel and any starting state whose result it
reports successfully. -/
theorem S3history_nodup (cl : Client) (sum : Bytes → String) (fuel : Nat)
    (st : S3State) (out : List Bytes) (st' : S3State)
    (h : S3history cl sum fuel st = (.ok out, st')) :
    (out.map sum).Nodup := by
  rcases hl : historyLoop cl sum st.cfg.key st.cfg.maxVersions fuel
      (initParams st.cfg) [] st.sums 0 with ⟨r, sums'⟩
  rcases r with e | o
  · rw [S3history, hl] at h
    exact absurd h (by simp)
  · rw [S3history, hl] at h
    simp only [Prod.mk.injEq, Except.ok.injEq] at h
    rw [← h.1]
    exact historyLoop_nodup cl sum st.cfg.key st.cfg.maxVersions fuel
      (initParams st.cfg) [] st.sums 0 (by simp) (by simp) o sums' hl

/-- `S3.History` on a state whose cap is positive returns at most
`maxVersions` entries. -/
theorem S3history_len (cl : Client) (sum : Bytes → String) (fuel : Nat)
    (st : S3State) (out : List Bytes) (st' : S3State)
    (hpos : 0 < st.cfg.maxVersions)
    (h : S3history cl sum fuel st = (.ok out, st')) :
    out.length ≤ st.cfg.maxVersions := by
  rcases hl : historyLoop cl sum st.cfg.key st.cfg.maxVersions fuel
      (initParams st.cfg) [] st.sums 0 with ⟨r, sums'⟩
  rcases r with e | o
  · rw [S3history, hl] at h
    exact absurd h (by simp)
  · rw [S3history, hl] at h
    simp only [Prod.mk.injEq, Except.ok.injEq] at h
    rw [← h.1]
    exact historyLoop_len cl sum st.cfg.key st.cfg.maxVersions fuel
      (initParams st.cfg) [] st.sums 0 rfl (by omega) hpos o sums' hl

/-- `S3.History` never downloads a version of a key other than the
archive's configured key: get behavior elsewhere is invisible. -/
theorem S3history_congr_get (l : ListParams → Except String ListPage)
    (g g' : String → String → Except String Bytes)
    (sum : Bytes → String) (fuel : Nat) (st : S3State)
    (hgg : ∀ vid, g st.cfg.key vid = g' st.cfg.key vid) :
    S3history ⟨l, g⟩ sum fuel st = S3history ⟨l, g'⟩ sum fuel st := by
  rw [S3history, S3history,
    historyLoop_congr_get l g g' sum st.cfg.key st.cfg.maxVersions hgg
      fuel (initParams st.cfg) [] st.sums 0]

/-- Fuel monotonicity at the `S3history` level. -/
theorem S3history_fuel_mono (cl : Client) (sum : Bytes → String)
    (fuel : Nat) (st : S3State) (r : Except HistErr (List Bytes))
    (st' : S3State) (hr : r ≠ .error .fuel)
    (h : S3history cl sum fuel st = (r, st')) :
    ∀ f, fuel ≤ f → S3history cl sum f st = (r, st') := by
  intro f hf
  rcases hl : historyLoop cl sum st.cfg.key st.cfg.maxVersions fuel
      (initParams st.cfg) [] st.sums 0 with ⟨r0, sums'⟩
  have hr0 : r0 ≠ .error .fuel := by
    intro hc
    rw [S3history, hl, hc] at h
    simp only [Prod.mk.injEq] at h
    exact hr (by rw [← h.1])
  have hmono := historyLoop_fuel_mono cl sum st.cfg.key st.cfg.maxVersions
    fuel (initParams st.cfg) [] st.sums 0 r0 sums' hr0 hl f hf
  rw [S3history, hmono, ← hl, ← S3history, h]

/-! ## Lemmas about the concrete store -/

/-- A character list is a prefix of itself. -/
theorem isPrefixOf_self_chars (l : List Char) : List.isPrefixOf l l = true := by
  induction l with
  | nil => rfl
  | cons a as ih => simp [List.isPrefixOf, ih]

/-- A string is a prefix of itself, so prefix-scoped listing always
returns the archive key's own versions. -/
theorem pfxMatch_self (s : String) : pfxMatch s s = true :=
  isPrefixOf_self_chars s.data

/-- A listing whose versions all carry the archive key passes the
backend prefix filter intact. -/
theorem filter_keys_self (key : String) (objs : List ObjVersion)
    (hkeys : ∀ v ∈ objs, v.key = key) :
    objs.filter (fun v => pfxMatch key v.key) = objs := by
  refine List.filter_eq_self.mpr ?_
  intro v hv
  rw [hkeys v hv]
  exact pfxMatch_self key

/-- With pairwise-distinct version ids, resuming after the marker of the
`j`-th listed version resumes exactly at position `j + 1`. -/
theorem dropAfterMarker_at (l : List ObjVersion)
    (hnd : (l.map ObjVersion.versionId).Nodup) :
    ∀ (j : Nat) (hj : j < l.length),
    dropAfterMarker l (l.get ⟨j, hj⟩).key (l.get ⟨j, hj⟩).versionId =
      l.drop (j + 1) := by
  induction l with
  | nil => intro j hj; exact absurd hj (by simp)
  | cons v rest ih =>
    intro j hj
    simp only [List.map_cons, List.nodup_cons] at hnd
    match j with
    | 0 =>
      simp [dropAfterMarker]
    | j' + 1 =>
      have hj' : j' < rest.length := by
        simpa using hj
      have hx : (v :: rest).get ⟨j' + 1, hj⟩ = rest.get ⟨j', hj'⟩ := rfl
      rw [hx]
      have hvne : ¬ (v.key = (rest.get ⟨j', hj'⟩).key ∧
          v.versionId = (rest.get ⟨j', hj'⟩).versionId) := by
        rintro ⟨-, h2⟩
        exact hnd.1 (h2 ▸ List.mem_map_of_mem ObjVersion.versionId
          (rest.get_mem j' hj'))
      simp only [dropAfterMarker, if_neg hvne]
      rw [ih hnd.2 j' hj']
      rfl

/-- With pairwise-distinct version ids, looking a listed version up by
its key and version id finds exactly that version. -/
theorem find?_vid (objs : List ObjVersion) (it : ObjVersion)
    (hit : it ∈ objs) (hnd : (objs.map ObjVersion.versionId).Nodup) :
    objs.find? (fun v => v.key == it.key && v.versionId == it.versionId) =
      some it := by
  induction objs with
  | nil => exact absurd hit (by simp)
  | cons v rest ih =>
    simp only [List.map_cons, List.nodup_cons] at hnd
    rcases List.mem_cons.mp hit with h | h
    · rw [← h]
      simp [List.find?]
    · have hvne : v.versionId ≠ it.versionId := by
        intro hc
        exact hnd.1 (hc ▸ List.mem_map_of_mem ObjVersion.versionId h)
      have hpred : (v.key == it.key && v.versionId == it.versionId) =
          false := by
        simp [hvne]
      rw [List.find?]
      rw [hpred]
      exact ih h hnd.2

/-- `storeGet` returns the body of any listed version, given distinct
version ids. -/
theorem storeGet_of_mem (objs : List ObjVersion) (nid : Nat)
    (it : ObjVersion) (hit : it ∈ objs)
    (hnd : (objs.map ObjVersion.versionId).Nodup) :
    storeGet ⟨objs, nid⟩ it.key it.versionId = .ok it.body := by
  rw [storeGet]
  rw [find?_vid objs it hit hnd]

/-- The last-seen pair after scanning a nonempty listing is the last
listed version's key/version-id pair, whatever the starting pair. -/
theorem lastKeyVid_eq_getLast :
    ∀ (l : List ObjVersion) (p : String × String) (h : l ≠ []),
    lastKeyVid l p = ((l.getLast h).key, (l.getLast h).versionId) := by
  intro l
  induction l with
  | nil => intro p h; exact absurd rfl h
  | cons v rest ih =>
    intro p h
    match rest, ih with
    | [], _ => simp [lastKeyVid, List.getLast]
    | w :: rest', ih =>
      rw [show lastKeyVid (v :: w :: rest') p =
        lastKeyVid (w :: rest') (v.key, v.versionId) from rfl]
      rw [ih (v.key, v.versionId) (by simp)]
      have hgl : (v :: w :: rest').getLast h =
          (w :: rest').getLast (by simp) := List.getLast_cons (by simp)
      rw [hgl]

/-- The full paginated walk over an honest store holding more than `k`
distinct versions of the archive key, with cap `k`: starting `i`
versions in (`i < k`), the loop finishes within exactly the number of
pages needed to reach `k` accumulated entries and returns the `k`
newest bodies, reversed to oldest-first order. -/
theorem historyLoop_store_cap (sum : Bytes → String) (key : String)
    (k p nid : Nat) (mk : Option Nat) (all : List ObjVersion)
    (hkeys : ∀ v ∈ all, v.key = key)
    (hvids : (all.map ObjVersion.versionId).Nodup)
    (hsums : (sumsOf sum all).Nodup)
    (hcap : 0 < pageCap p mk)
    (hk : 0 < k) (hkN : k < all.length) :
    ∀ (fuel i : Nat) (ps : ListParams),
    i < k → ps.pfx = key → ps.maxKeys = mk →
    listRest all ps = all.drop i →
    (k - i - 1) / pageCap p mk + 1 ≤ fuel →
    historyLoop (storeClient ⟨all, nid⟩ p) sum key k fuel ps
        (bodiesOf (all.take i)) ((sumsOf sum (all.take i)).reverse) i =
      (.ok (bodiesOf (all.take k)).reverse,
       (sumsOf sum (all.take k)).reverse) := by
  intro fuel
  induction fuel with
  | zero =>
    intro i ps _ _ _ _ hfuel
    exact absurd hfuel (Nat.not_succ_le_zero _)
  | succ fuel ih =>
    intro i ps hik hpfx hmk hrest hfuel
    have hlist : storeList ⟨all, nid⟩ p ps = .ok
        { versions := (all.drop i).take (pageCap p mk)
          isTruncated := decide (pageCap p mk < (all.drop i).length)
          nextKeyMarker := (((all.drop i).take (pageCap p mk)).getLast?).elim
            "" ObjVersion.key
          nextVersionIdMarker :=
            (((all.drop i).take (pageCap p mk)).getLast?).elim ""
              ObjVersion.versionId } := by
      simp only [storeList, hrest, hmk]
    have hsubd : ∀ x ∈ (all.drop i).take (pageCap p mk), x ∈ all :=
      fun x hx => List.mem_of_mem_drop (List.mem_of_mem_take hx)
    have hget : ∀ it ∈ (all.drop i).take (pageCap p mk), it.key = key →
        storeGet ⟨all, nid⟩ it.key it.versionId = .ok it.body := by
      intro it hit _
      exact storeGet_of_mem all nid it (hsubd it hit) hvids
    have hkeyseq : keyMatches key ((all.drop i).take (pageCap p mk)) =
        (all.drop i).take (pageCap p mk) := by
      refine List.filter_eq_self.mpr ?_
      intro v hv
      simp [hkeys v (hsubd v hv)]
    have hsl : List.Sublist ((all.drop i).take (pageCap p mk)) all :=
      (List.take_sublist _ _).trans (List.drop_sublist _ _)
    have hdist :
        (sumsOf sum (keyMatches key ((all.drop i).take (pageCap p mk)))).Nodup := by
      rw [hkeyseq]
      exact hsums.sublist (hsl.map _)
    have happ : (sumsOf sum (all.take i) ++ sumsOf sum (all.drop i)).Nodup := by
      simp only [sumsOf, ← List.map_append, List.take_append_drop]
      exact hsums
    have hfresh : ∀ it ∈ (all.drop i).take (pageCap p mk), it.key = key →
        sum it.body ∉ (sumsOf sum (all.take i)).reverse := by
      intro it hit _
      rw [List.mem_reverse]
      intro hmem
      have h2 : sum it.body ∈ sumsOf sum (all.drop i) :=
        List.mem_map_of_mem _ (List.mem_of_mem_take hit)
      exact (List.nodup_append.mp happ).2.2 hmem h2
    have hspec := walkItems_spec (storeGet ⟨all, nid⟩) sum key k
      ((all.drop i).take (pageCap p mk)) (bodiesOf (all.take i))
      ((sumsOf sum (all.take i)).reverse) i "" "" hget hdist hfresh
      (Or.inr hik)
    by_cases hcase : k ≤ i + pageCap p mk
    · -- final page: the cap is reached inside this page
      have hlen_items : k - i ≤ ((all.drop i).take (pageCap p mk)).length := by
        rw [List.length_take, List.length_drop]
        exact Nat.le_min.mpr ⟨by omega, by omega⟩
      have hcond : 0 < k ∧ k ≤ i +
          (keyMatches key ((all.drop i).take (pageCap p mk))).length := by
        rw [hkeyseq]
        exact ⟨hk, by omega⟩
      rw [if_pos hcond, hkeyseq] at hspec
      have htke : ((all.drop i).take (pageCap p mk)).take (k - i) =
          (all.drop i).take (k - i) := by
        rw [List.take_take]
        congr 1
        exact Nat.min_eq_left (by omega)
      rw [htke] at hspec
      have hbod : bodiesOf (all.take i) ++
          bodiesOf ((all.drop i).take (k - i)) = bodiesOf (all.take k) := by
        simp only [bodiesOf, ← List.map_append]
        congr 1
        rw [← List.take_add]
        congr 1
        omega
      have hsum2 : (sumsOf sum ((all.drop i).take (k - i))).reverse ++
          (sumsOf sum (all.take i)).reverse =
          (sumsOf sum (all.take k)).reverse := by
        rw [← List.reverse_append]
        congr 1
        simp only [sumsOf, ← List.map_append]
        congr 1
        rw [← List.take_add]
        congr 1
        omega
      simp only [historyLoop, storeClient, hlist, hspec]
      rw [hbod, hsum2]
    · -- intermediate page: the page fills up below the cap
      have hlenB : ((all.drop i).take (pageCap p mk)).length =
          pageCap p mk := by
        rw [List.length_take, List.length_drop]
        exact Nat.min_eq_left (by omega)
      have hcondB : ¬ (0 < k ∧ k ≤ i +
          (keyMatches key ((all.drop i).take (pageCap p mk))).length) := by
        rw [hkeyseq, hlenB]
        omega
      rw [if_neg hcondB, hkeyseq, hlenB] at hspec
      have hne : (all.drop i).take (pageCap p mk) ≠ [] := by
        intro hc
        rw [hc] at hlenB
        simp only [List.length_nil] at hlenB
        omega
      have hidx : i + pageCap p mk - 1 < all.length := by omega
      have hlast : ((all.drop i).take (pageCap p mk)).getLast hne =
          all.get ⟨i + pageCap p mk - 1, hidx⟩ := by
        have h0 : ((all.drop i).take (pageCap p mk)).get?
            (((all.drop i).take (pageCap p mk)).length - 1) =
            some (((all.drop i).take (pageCap p mk)).getLast hne) := by
          rw [List.getLast_eq_get _ hne]
          exact List.get?_eq_get (by omega)
        rw [hlenB] at h0
        rw [List.get?_take (by omega), List.get?_drop] at h0
        rw [List.get?_eq_get
          (show i + (pageCap p mk - 1) < all.length by omega)] at h0
        have h4 : all.get ⟨i + (pageCap p mk - 1), by omega⟩ =
            all.get ⟨i + pageCap p mk - 1, hidx⟩ := by
          congr 1
          apply Fin.ext
          show i + (pageCap p mk - 1) = i + pageCap p mk - 1
          omega
        rw [h4] at h0
        exact (Option.some.inj h0).symm
      have hglo : ((all.drop i).take (pageCap p mk)).getLast? =
          some (all.get ⟨i + pageCap p mk - 1, hidx⟩) := by
        rw [List.getLast?_eq_getLast _ hne, hlast]
      have hmkey : (all.get ⟨i + pageCap p mk - 1, hidx⟩).key = key :=
        hkeys _ (all.get_mem _ _)
      have hlkv : lastKeyVid ((all.drop i).take (pageCap p mk)) ("", "") =
          ((all.get ⟨i + pageCap p mk - 1, hidx⟩).key,
           (all.get ⟨i + pageCap p mk - 1, hidx⟩).versionId) := by
        rw [lastKeyVid_eq_getLast _ _ hne, hlast]
      have hbodB : bodiesOf (all.take i) ++
          bodiesOf ((all.drop i).take (pageCap p mk)) =
          bodiesOf (all.take (i + pageCap p mk)) := by
        simp only [bodiesOf, ← List.map_append]
        congr 1
        rw [← List.take_add]
      have hsumB : (sumsOf sum ((all.drop i).take (pageCap p mk))).reverse ++
          (sumsOf sum (all.take i)).reverse =
          (sumsOf sum (all.take (i + pageCap p mk))).reverse := by
        rw [← List.reverse_append]
        congr 1
        simp only [sumsOf, ← List.map_append]
        congr 1
        rw [← List.take_add]
      rw [hbodB, hsumB, hlkv] at hspec
      have hrest' : listRest all
          { ps with
            keyMarker := some (all.get ⟨i + pageCap p mk - 1, hidx⟩).key
            versionIdMarker :=
              some (all.get ⟨i + pageCap p mk - 1, hidx⟩).versionId } =
          all.drop (i + pageCap p mk) := by
        simp only [listRest, hpfx]
        rw [filter_keys_self key all hkeys]
        rw [dropAfterMarker_at all hvids (i + pageCap p mk - 1) hidx]
        congr 1
        omega
      have hfuel' : (k - (i + pageCap p mk) - 1) / pageCap p mk + 1 ≤
          fuel := by
        have hd : (k - i - 1) / pageCap p mk =
            (k - i - 1 - pageCap p mk) / pageCap p mk + 1 :=
          Nat.div_eq_sub_div hcap (by omega)
        have he : k - i - 1 - pageCap p mk = k - (i + pageCap p mk) - 1 := by
          omega
        rw [hd, he] at hfuel
        omega
      have hrec := ih (i + pageCap p mk)
        { ps with
          keyMarker := some (all.get ⟨i + pageCap p mk - 1, hidx⟩).key
          versionIdMarker :=
            some (all.get ⟨i + pageCap p mk - 1, hidx⟩).versionId }
        (by omega) hpfx hmk hrest' hfuel'
      have htr : decide (pageCap p mk < (all.drop i).length) = true := by
        rw [List.length_drop]
        simp only [decide_eq_true_eq]
        omega
      have hend : ¬ (¬ (decide (pageCap p mk < (all.drop i).length)) = true ∨
          ((all.drop i).take (pageCap p mk)).isEmpty = true) := by
        rw [htr]
        simp [List.isEmpty_iff, hne]
      simp only [historyLoop, storeClient, hlist, hspec]
      rw [if_neg hend, hglo]
      simp only [Option.elim]
      rw [hmkey]
      by_cases hkey0 : key = ""
      · rw [if_pos hkey0]
        dsimp only
        rw [hmkey] at hrec
        simp only [storeClient] at hrec
        exact hrec
      · rw [if_neg hkey0]
        dsimp only
        rw [hmkey] at hrec
        simp only [storeClient] at hrec
        exact hrec

/-- A page-size-wide listing of the whole remaining store at an
unreached (or absent) cap: the walk returns every version's body,
reversed to oldest-first, in a single page fetch. -/
theorem historyLoop_store_all (sum : Bytes → String) (key : String)
    (maxV p nid : Nat) (mk : Option Nat) (all : List ObjVersion) (f : Nat)
    (hkeys : ∀ v ∈ all, v.key = key)
    (hvids : (all.map ObjVersion.versionId).Nodup)
    (hsums : (sumsOf sum all).Nodup)
    (hle : all.length ≤ pageCap p mk)
    (hmaxV : maxV = 0 ∨ all.length ≤ maxV)
    (ps : ListParams) (hpfx : ps.pfx = key) (hmk : ps.maxKeys = mk)
    (hrest : listRest all ps = all) :
    historyLoop (storeClient ⟨all, nid⟩ p) sum key maxV (f + 1) ps
        [] [] 0 =
      (.ok (bodiesOf all).reverse, (sumsOf sum all).reverse) := by
  have htake : all.take (pageCap p mk) = all := List.take_of_length_le hle
  have hlist : storeList ⟨all, nid⟩ p ps = .ok
      { versions := all
        isTruncated := decide (pageCap p mk < all.length)
        nextKeyMarker := (all.getLast?).elim "" ObjVersion.key
        nextVersionIdMarker := (all.getLast?).elim ""
          ObjVersion.versionId } := by
    simp only [storeList, hrest, hmk, htake]
  have hget : ∀ it ∈ all, it.key = key →
      storeGet ⟨all, nid⟩ it.key it.versionId = .ok it.body := by
    intro it hit _
    exact storeGet_of_mem all nid it hit hvids
  have hkeyseq : keyMatches key all = all := by
    refine List.filter_eq_self.mpr ?_
    intro v hv
    simp [hkeys v hv]
  have hdist : (sumsOf sum (keyMatches key all)).Nodup := by
    rw [hkeyseq]; exact hsums
  have hfresh : ∀ it ∈ all, it.key = key →
      sum it.body ∉ ([] : List String) := by
    intro it _ _
    simp
  have hspec := walkItems_spec (storeGet ⟨all, nid⟩) sum key maxV all
    [] [] 0 "" "" hget hdist hfresh (by omega)
  rw [hkeyseq] at hspec
  have hnotr : ¬ (pageCap p mk < all.length) := by omega
  by_cases hcond : 0 < maxV ∧ maxV ≤ 0 + all.length
  · have hmveq : maxV = all.length := by omega
    rw [if_pos hcond] at hspec
    have htk : all.take (maxV - 0) = all := by
      rw [hmveq]
      simp [List.take_length]
    rw [htk] at hspec
    simp only [historyLoop, storeClient, hlist, hspec]
    simp
  · rw [if_neg hcond] at hspec
    simp only [historyLoop, storeClient, hlist, hspec]
    rw [if_pos]
    · simp
    · left
      simp [hnotr]

/-! ## Lemmas about puts -/

/-- Version-id generation is injective. -/
theorem vidOf_inj (a b : Nat) (h : vidOf a = vidOf b) : a = b := by
  have hlen := congrArg String.length h
  simp only [vidOf, String.length, List.length_replicate] at hlen
  omega

/-- The store after a put sequence: the new versions are prepended, the
id counter advances by the number of writes. -/
theorem storeAfterPuts_eq (key : String) :
    ∀ (bs : List Bytes) (store : Store),
    storeAfterPuts key bs store =
      ⟨putObjs key bs store.nextId ++ store.objs,
       store.nextId + bs.length⟩ := by
  intro bs
  induction bs with
  | nil => intro store; simp [storeAfterPuts, putObjs]
  | cons b rest ih =>
    intro store
    rw [show storeAfterPuts key (b :: rest) store =
      storeAfterPuts key rest (storePut store key b) from rfl]
    rw [ih (storePut store key b)]
    simp only [storePut, putObjs, Store.mk.injEq, List.length_cons]
    exact ⟨by simp, by omega⟩

/-- Every version written by a put sequence carries the put key. -/
theorem putObjs_keys (key : String) :
    ∀ (bs : List Bytes) (start : Nat), ∀ v ∈ putObjs key bs start,
    v.key = key := by
  intro bs
  induction bs with
  | nil => intro start v hv; exact absurd hv (by simp [putObjs])
  | cons b rest ih =>
    intro start v hv
    simp only [putObjs, List.mem_append, List.mem_singleton] at hv
    rcases hv with h | h
    · exact ih (start + 1) v h
    · rw [h]

/-- The version ids written by a put sequence are generated from the
counter range. -/
theorem putObjs_vid_range (key : String) :
    ∀ (bs : List Bytes) (start : Nat), ∀ v ∈ putObjs key bs start,
    ∃ j, start ≤ j ∧ v.versionId = vidOf j := by
  intro bs
  induction bs with
  | nil => intro start v hv; exact absurd hv (by simp [putObjs])
  | cons b rest ih =>
    intro start v hv
    simp only [putObjs, List.mem_append, List.mem_singleton] at hv
    rcases hv with h | h
    · obtain ⟨j, hj1, hj2⟩ := ih (start + 1) v h
      exact ⟨j, by omega, hj2⟩
    · exact ⟨start, le_refl _, by rw [h]⟩

/-- The version ids written by a put sequence are pairwise distinct. -/
theorem putObjs_vids_nodup (key : String) :
    ∀ (bs : List Bytes) (start : Nat),
    ((putObjs key bs start).map ObjVersion.versionId).Nodup := by
  intro bs
  induction bs with
  | nil => intro start; simp [putObjs]
  | cons b rest ih =>
    intro start
    simp only [putObjs, List.map_append, List.map_cons, List.map_nil]
    rw [List.nodup_append]
    refine ⟨ih (start + 1), List.nodup_singleton _, ?_⟩
    intro x hx
    simp only [List.mem_singleton]
    intro hxe
    obtain ⟨v, hv, hvx⟩ := List.mem_map.mp hx
    obtain ⟨j, hj1, hj2⟩ := putObjs_vid_range key rest (start + 1) v hv
    rw [← hvx, hj2] at hxe
    have := vidOf_inj j start hxe
    omega

/-- The bodies of a put sequence's listing, newest first, are the put
bodies reversed. -/
theorem putObjs_bodies (key : String) :
    ∀ (bs : List Bytes) (start : Nat),
    bodiesOf (putObjs key bs start) = bs.reverse := by
  intro bs
  induction bs with
  | nil => intro start; simp [putObjs, bodiesOf]
  | cons b rest ih =>
    intro start
    simp only [putObjs, bodiesOf, List.map_append, List.map_cons,
      List.map_nil, List.reverse_cons]
    rw [show List.map ObjVersion.body (putObjs key rest (start + 1)) =
      bodiesOf (putObjs key rest (start + 1)) from rfl, ih (start + 1)]

/-- The fingerprints of a put sequence's listing, newest first, are the
put fingerprints reversed. -/
theorem putObjs_sums (sum : Bytes → String) (key : String) :
    ∀ (bs : List Bytes) (start : Nat),
    sumsOf sum (putObjs key bs start) = (bs.map sum).reverse := by
  intro bs
  induction bs with
  | nil => intro start; simp [putObjs, sumsOf]
  | cons b rest ih =>
    intro start
    simp only [putObjs, sumsOf, List.map_append, List.map_cons,
      List.map_nil, List.reverse_cons, List.map_reverse]
    rw [show List.map (fun it => sum it.body) (putObjs key rest (start + 1))
      = sumsOf sum (putObjs key rest (start + 1)) from rfl, ih (start + 1)]

/-- A put sequence writes one version per body. -/
theorem putObjs_length (key : String) :
    ∀ (bs : List Bytes) (start : Nat),
    (putObjs key bs start).length = bs.length := by
  intro bs
  induction bs with
  | nil => intro start; simp [putObjs]
  | cons b rest ih =>
    intro start
    simp only [putObjs, List.length_append, List.length_cons,
      List.length_nil, ih (start + 1), List.length_cons]

/-- `S3.Put` on an instance that has already fetched history: the
archive state is left entirely unchanged — in particular nothing is
added to the fingerprint set — a skip is logged exactly when the
fingerprint is already known, and the object is written
unconditionally. -/
theorem S3Put_fetched (sum : Bytes → String) (p fuel : Nat) (b : Bytes)
    (st : S3State) (store : Store) (hf : st.fetched = true) :
    S3Put sum p fuel b st store =
      (.ok (), st, storePut store st.cfg.key b,
       if sum b ∈ st.sums then [skipMsg (sum b)] else []) := by
  simp [S3Put, hf]

/-- A put sequence on an instance that has already fetched history
leaves the archive state unchanged and appends all versions. -/
theorem runPuts_fetched (sum : Bytes → String) (p fuel : Nat) :
    ∀ (bs : List Bytes) (st : S3State) (store : Store),
    st.fetched = true →
    runPuts sum p fuel bs st store =
      .ok (st, storeAfterPuts st.cfg.key bs store) := by
  intro bs
  induction bs with
  | nil =>
    intro st store hf
    simp [runPuts, storeAfterPuts]
  | cons b rest ih =>
    intro st store hf
    simp only [runPuts, S3Put_fetched sum p fuel b st store hf]
    exact ih st (storePut store st.cfg.key b) hf

/-- The first `Put` on a fresh archive over an empty store: the
bootstrap overwrites the configured cap with 100 and fetches the (empty)
history, the fingerprint set stays empty, no skip is logged, and the
object is written. -/
theorem S3Put_first (sum : Bytes → String) (p fuel : Nat) (b : Bytes)
    (cfg : S3Config) (hf : 0 < fuel) :
    S3Put sum p fuel b (freshState cfg) emptyStore =
      (.ok (), ⟨{ cfg with maxVersions := 100 }, [], true⟩,
       storePut emptyStore cfg.key b, []) := by
  obtain ⟨f, rfl⟩ : ∃ f, fuel = f + 1 := ⟨fuel - 1, by omega⟩
  simp [S3Put, freshState, S3history, historyLoop, initParams, storeClient,
    storeList, listRest, pageCap, walkItems, emptyStore, skipMsg]

/-- A nonempty put sequence on a fresh archive over an empty store:
the state ends with cap 100, an empty fingerprint set, and the history
marked fetched; the store ends holding exactly the put versions. -/
theorem runPuts_fresh (sum : Bytes → String) (cfg : S3Config) (b : Bytes)
    (bs : List Bytes) :
    runPuts sum 1000 1 (b :: bs) (freshState cfg) emptyStore =
      .ok (⟨{ cfg with maxVersions := 100 }, [], true⟩,
        storeAfterPuts cfg.key (b :: bs) emptyStore) := by
  simp only [runPuts, S3Put_first sum 1000 1 b cfg (by omega)]
  exact runPuts_fetched sum 1000 1 bs
    ⟨{ cfg with maxVersions := 100 }, [], true⟩
    (storePut emptyStore cfg.key b) rfl

/-- End-to-end: at most 100 puts of pairwise-distinct-fingerprint bodies
on a fresh archive, then one `History` call, yields exactly the put
bodies, oldest first. -/
theorem putsThenHistory_eq (sum : Bytes → String) (cfg : S3Config)
    (bs : List Bytes) (hne : bs ≠ []) (hlen : bs.length ≤ 100)
    (hnd : (bs.map sum).Nodup) :
    putsThenHistory sum cfg bs = .ok bs := by
  obtain ⟨b, rest, rfl⟩ := List.exists_cons_of_ne_nil hne
  rw [putsThenHistory, runPuts_fresh sum cfg b rest]
  rw [storeAfterPuts_eq cfg.key (b :: rest) emptyStore]
  have hobjs : putObjs cfg.key (b :: rest) emptyStore.nextId ++
      emptyStore.objs = putObjs cfg.key (b :: rest) 0 := by
    simp [emptyStore]
  rw [hobjs]
  dsimp only
  have hloop := historyLoop_store_all sum cfg.key 100 1000
    (emptyStore.nextId + (b :: rest).length) (some 100)
    (putObjs cfg.key (b :: rest) 0) 0
    (putObjs_keys cfg.key (b :: rest) 0)
    (putObjs_vids_nodup cfg.key (b :: rest) 0)
    (by rw [putObjs_sums]
        exact List.nodup_reverse.mpr hnd)
    (by rw [putObjs_length]
        simp only [pageCap, List.length_cons] at hlen ⊢
        omega)
    (by rw [putObjs_length]
        simp only [List.length_cons] at hlen ⊢
        omega)
    (initParams { cfg with maxVersions := 100 })
    (by simp [initParams])
    (by simp [initParams])
    (by simp only [listRest, initParams]
        exact filter_keys_self cfg.key _ (putObjs_keys cfg.key (b :: rest) 0))
  rw [show (S3history (storeClient
      ⟨putObjs cfg.key (b :: rest) 0,
        emptyStore.nextId + (b :: rest).length⟩ 1000) sum 1
      ⟨{ cfg with maxVersions := 100 }, [], true⟩) =
    (.ok (bodiesOf (putObjs cfg.key (b :: rest) 0)).reverse,
     ⟨{ cfg with maxVersions := 100 },
      (sumsOf sum (putObjs cfg.key (b :: rest) 0)).reverse, true⟩) from by
    rw [S3history]
    rw [show (⟨{ cfg with maxVersions := 100 }, [], true⟩ :
      S3State).cfg.maxVersions = 100 from rfl]
    rw [hloop]]
  rw [putObjs_bodies cfg.key (b :: rest) 0, List.reverse_reverse]

/-- A history call never modifies the configuration (only the
fingerprint set and the fetched flag). -/
theorem S3history_cfg (cl : Client) (sum : Bytes → String) (fuel : Nat)
    (st : S3State) : ((S3history cl sum fuel st).2).cfg = st.cfg := by
  rw [S3history]
  rcases hl : historyLoop cl sum st.cfg.key st.cfg.maxVersions fuel
      (initParams st.cfg) [] st.sums 0 with ⟨r, sums'⟩
  rcases r with e | o
  · rfl
  · rfl

/-! ## Claim theorems -/

/-- C4 (counterexample): a successful `Put` on a fresh S3 archive does
NOT record the artifact's fingerprint in the in-memory fingerprint set:
after the put succeeds, the set is still empty. -/
theorem claim_C4_counterexample :
    (S3Put sumFn 1000 1 [5] (freshState cexCfg) emptyStore).1 = .ok ()
    ∧ sumFn [5] ∉
      ((S3Put sumFn 1000 1 [5] (freshState cexCfg) emptyStore).2.1).sums := by
  decide

/-- C4 (amended): `Put` never touches the fingerprint set. On an
instance that has already fetched history, a successful `Put` leaves the
archive state entirely unchanged (fingerprint set included), merely
logging a skip decision for known fingerprints and appending the object
to the backend; the new object's fingerprint enters the set only once a
subsequent history walk downloads it from the backend, as the concrete
second part shows. -/
theorem claim_C4_put_records_nothing :
    (∀ (sum : Bytes → String) (p fuel : Nat) (b : Bytes) (st : S3State)
       (store : Store), st.fetched = true →
       S3Put sum p fuel b st store =
         (.ok (), st, storePut store st.cfg.key b,
          if sum b ∈ st.sums then [skipMsg (sum b)] else []))
    ∧ sumFn [5] ∈
      ((S3history (storeClient
          ((S3Put sumFn 1000 1 [5] ⟨cexCfg, [], true⟩ emptyStore).2.2.1)
          1000) sumFn 1
        ((S3Put sumFn 1000 1 [5] ⟨cexCfg, [], true⟩ emptyStore).2.1)).2).sums
    := ⟨S3Put_fetched, by decide⟩

/-- C4 witness. -/
theorem claim_C4_put_records_nothing_witness :
    S3Put sumFn 1000 1 [9] ⟨cexCfg, [], true⟩ emptyStore =
      (.ok (), ⟨cexCfg, [], true⟩, storePut emptyStore cexCfg.key [9],
       if sumFn [9] ∈ (⟨cexCfg, [], true⟩ : S3State).sums then
         [skipMsg (sumFn [9])] else []) :=
  claim_C4_put_records_nothing.1 sumFn 1000 1 [9] ⟨cexCfg, [], true⟩
    emptyStore rfl

/-- C5: a `Put` whose bytes have a fingerprint already in the set logs
the skip decision but does not return early — the physical write is
still issued (one version is appended to the backend), so the dedup
check has no effect on whether bytes are written. -/
theorem claim_C5_skip_logged_but_write_issued (sum : Bytes → String)
    (p fuel : Nat) (b : Bytes) (st : S3State) (store : Store)
    (hf : st.fetched = true) (hdup : sum b ∈ st.sums) :
    S3Put sum p fuel b st store =
      (.ok (), st, storePut store st.cfg.key b, [skipMsg (sum b)])
    ∧ (storePut store st.cfg.key b).objs.length = store.objs.length + 1 := by
  constructor
  · rw [S3Put_fetched sum p fuel b st store hf, if_pos hdup]
  · simp [storePut]

/-- C5 witness. -/
theorem claim_C5_witness :
    S3Put sumFn 1000 1 [5] ⟨cexCfg, [sumFn [5]], true⟩ emptyStore =
      (.ok (), ⟨cexCfg, [sumFn [5]], true⟩,
       storePut emptyStore cexCfg.key [5], [skipMsg (sumFn [5])]) :=
  (claim_C5_skip_logged_but_write_issued sumFn 1000 1 [5]
    ⟨cexCfg, [sumFn [5]], true⟩ emptyStore rfl (by decide)).1

/-- C9: the factory rejects any discriminator other than the empty/unset
one and "s3" with an error naming the unsupported value; the empty/unset
discriminator yields the no-op archive, whose `History` always returns
the empty sequence without error (and whose `Put` is a no-op). -/
theorem claim_C9_factory :
    (∀ (t : String) (c : S3Config), t ≠ "" → t ≠ "empty" → t ≠ "s3" →
      archiveNew t c = .error ("unsupported type: " ++ t))
    ∧ (∀ c, archiveNew "" c = .ok .empty)
    ∧ (∀ c, archiveNew "empty" c = .ok .empty)
    ∧ emptyHistory = .ok [] ∧ emptyPut = .ok () := by
  refine ⟨?_, fun c => rfl, fun c => rfl, rfl, rfl⟩
  intro t c h1 h2 h3
  rw [archiveNew, if_neg (by simp [h1, h2]), if_neg h3]

/-- C9 witness. -/
theorem claim_C9_factory_witness :
    archiveNew "dynamodb" cexCfg = .error "unsupported type: dynamodb" :=
  claim_C9_factory.1 "dynamodb" cexCfg (by decide) (by decide) (by decide)

/-- C10: the first `Put` on an instance that has not fetched history
overwrites the configured `MaxVersions` with the fixed bootstrap value
100 — whatever was configured, including 0/unset — and nothing ever
restores it (`History` never touches the config, and later `Put`s leave
the state unchanged), so every subsequent successful `History` call on
that instance returns at most 100 entries. -/
theorem claim_C10_bootstrap_overwrites_cap :
    (∀ (sum : Bytes → String) (p fuel : Nat) (b : Bytes) (st : S3State)
       (store : Store), st.fetched = false →
       ((S3Put sum p fuel b st store).2.1).cfg.maxVersions = 100)
    ∧ (∀ (cl : Client) (sum : Bytes → String) (fuel : Nat) (st : S3State),
       ((S3history cl sum fuel st).2).cfg = st.cfg)
    ∧ (∀ (sum : Bytes → String) (p fuel : Nat) (b : Bytes) (st : S3State)
       (store : Store), st.fetched = true →
       ((S3Put sum p fuel b st store).2.1) = st)
    ∧ (∀ (cl : Client) (sum : Bytes → String) (fuel : Nat) (st : S3State)
       (out : List Bytes) (st' : S3State),
       st.cfg.maxVersions = 100 →
       S3history cl sum fuel st = (.ok out, st') → out.length ≤ 100) := by
  refine ⟨?_, fun cl sum fuel st => S3history_cfg cl sum fuel st, ?_, ?_⟩
  · intro sum p fuel b st store hf
    rcases hh : S3history (storeClient store p) sum fuel
        { cfg := { bucket := st.cfg.bucket, key := st.cfg.key,
                   region := st.cfg.region, maxVersions := 100 },
          sums := st.sums, fetched := false } with ⟨r, st2⟩
    have hcfg := S3history_cfg (storeClient store p) sum fuel
      { cfg := { bucket := st.cfg.bucket, key := st.cfg.key,
                 region := st.cfg.region, maxVersions := 100 },
        sums := st.sums, fetched := false }
    rw [hh] at hcfg
    simp only at hcfg
    rcases r with e | o <;>
      simp only [S3Put, hf, Bool.false_eq_true, if_false, hh] <;>
      simp [hcfg]
  · intro sum p fuel b st store hf
    rw [S3Put_fetched sum p fuel b st store hf]
  · intro cl sum fuel st out st' hmv h
    have := S3history_len cl sum fuel st out st' (by omega) h
    rwa [hmv] at this

/-- C10 witness. -/
theorem claim_C10_witness :
    ((S3Put sumFn 1000 1 [5] (freshState cexCfg)
      emptyStore).2.1).cfg.maxVersions = 100 :=
  claim_C10_bootstrap_overwrites_cap.1 sumFn 1000 1 [5]
    (freshState cexCfg) emptyStore rfl

/-- C2: a successful `History` never returns two entries with the same
fingerprint, over any backend behavior, fuel and starting state; in
particular (concretely), putting the same bytes twice on a fresh archive
leaves `History` with exactly one entry carrying that fingerprint. -/
theorem claim_C2_history_dedup :
    (∀ (cl : Client) (sum : Bytes → String) (fuel : Nat) (st : S3State)
       (out : List Bytes) (st' : S3State),
       S3history cl sum fuel st = (.ok out, st') → (out.map sum).Nodup)
    ∧ putsThenHistory sumFn cexCfg [[7], [7]] = .ok [[7]]
    ∧ (∀ vs, putsThenHistory sumFn cexCfg [[7], [7]] = .ok vs →
        (vs.filter (fun b => sumFn b == sumFn [7])).length = 1) := by
  refine ⟨S3history_nodup, by decide, ?_⟩
  intro vs h
  have h2 : putsThenHistory sumFn cexCfg [[7], [7]] = .ok [[7]] := by decide
  rw [h2] at h
  injection h with h
  rw [← h]
  decide

/-- C2 witness. -/
theorem claim_C2_witness :
    (([[3], [2], [1]] : List Bytes).map sumFn).Nodup :=
  claim_C2_history_dedup.1 edgeClient sumFn 3 (freshState cexCfg)
    [[3], [2], [1]]
    ⟨cexCfg, [sumFn [3], sumFn [2], sumFn [1]], true⟩ (by decide)


/-- C6: when a page is truncated but the backend returns an empty
continuation marker, the walker falls back to the last-seen item's own
key/version-id pair as the continuation point (first part, for any
client and loop state); on the spec's simulated three-page backend with
a dangling empty marker on page 2, the walk terminates — three page
fetches suffice, any larger fuel gives the same answer, two do not —
and returns all matching deduplicated versions, oldest first. -/
theorem claim_C6_empty_marker_fallback :
    (∀ (cl : Client) (sum : Bytes → String) (cfgKey : String)
       (maxV fuel : Nat) (ps : ListParams) (vs : List Bytes)
       (sums : List String) (n : Nat) (page : ListPage) (vs' : List Bytes)
       (sums' : List String) (n' : Nat) (lk lv : String),
       cl.list ps = .ok page →
       walkItems cl.get sum cfgKey maxV page.versions vs sums n "" "" =
         .cont vs' sums' n' lk lv →
       page.isTruncated = true → page.versions ≠ [] →
       page.nextKeyMarker = "" →
       historyLoop cl sum cfgKey maxV (fuel + 1) ps vs sums n =
         historyLoop cl sum cfgKey maxV fuel
           { ps with keyMarker := some lk, versionIdMarker := some lv }
           vs' sums' n'
       ∧ (lk, lv) = lastKeyVid page.versions ("", ""))
    ∧ (∀ f, 3 ≤ f →
        (S3history edgeClient sumFn f (freshState cexCfg)).1 =
          .ok [[3], [2], [1]])
    ∧ (S3history edgeClient sumFn 2 (freshState cexCfg)).1 =
        .error .fuel := by
  refine ⟨historyLoop_fallback, ?_, by decide⟩
  intro f hf
  have h3 : S3history edgeClient sumFn 3 (freshState cexCfg) =
      (.ok [[3], [2], [1]],
       ⟨cexCfg, [sumFn [3], sumFn [2], sumFn [1]], true⟩) := by decide
  rw [S3history_fuel_mono edgeClient sumFn 3 (freshState cexCfg) _ _
    (by simp) h3 f hf]

/-- C6 witness. -/
theorem claim_C6_witness :
    (S3history edgeClient sumFn 5 (freshState cexCfg)).1 =
      .ok [[3], [2], [1]] :=
  claim_C6_empty_marker_fallback.2.1 5 (by omega)

/-- C7: a backend failure during `History` — listing any page, from any
intermediate loop state, or downloading any key-matching version of a
page (after a clean run up to it) — aborts the whole call with the
wrapped error; the `Except` result carries no partial sequence, whatever
was accumulated before the failure. -/
theorem claim_C7_backend_error_aborts :
    (∀ (cl : Client) (sum : Bytes → String) (cfgKey : String)
       (maxV fuel : Nat) (ps : ListParams) (vs : List Bytes)
       (sums : List String) (n : Nat) (e : String),
       cl.list ps = .error e →
       historyLoop cl sum cfgKey maxV (fuel + 1) ps vs sums n =
         (.error (.backend ("error listing object versions: " ++ e)),
          sums))
    ∧ (∀ (cl : Client) (sum : Bytes → String) (cfgKey : String)
       (maxV fuel : Nat) (ps : ListParams) (vs : List Bytes)
       (sums : List String) (n : Nat) (e : String) (page : ListPage)
       (pre : List ObjVersion) (bad : ObjVersion) (rest : List ObjVersion),
       cl.list ps = .ok page →
       page.versions = pre ++ bad :: rest →
       (∀ it ∈ pre, it.key = cfgKey →
         cl.get it.key it.versionId = .ok it.body) →
       (sumsOf sum (keyMatches cfgKey pre)).Nodup →
       (∀ it ∈ pre, it.key = cfgKey → sum it.body ∉ sums) →
       (maxV = 0 ∨ n + (keyMatches cfgKey pre).length < maxV) →
       bad.key = cfgKey →
       cl.get bad.key bad.versionId = .error e →
       historyLoop cl sum cfgKey maxV (fuel + 1) ps vs sums n =
         (.error (.backend ("error downloading object version: " ++ e)),
          (sumsOf sum (keyMatches cfgKey pre)).reverse ++ sums))
    ∧ (∀ (cl : Client) (sum : Bytes → String) (fuel : Nat) (st : S3State)
       (e : String), cl.list (initParams st.cfg) = .error e →
       (S3history cl sum (fuel + 1) st).1 =
         .error (.backend ("error listing object versions: " ++ e))) := by
  refine ⟨historyLoop_list_error, historyLoop_get_error, ?_⟩
  intro cl sum fuel st e hl
  rw [S3history, historyLoop_list_error cl sum st.cfg.key
    st.cfg.maxVersions fuel (initParams st.cfg) [] st.sums 0 e hl]

/-- C7 witness. -/
theorem claim_C7_witness :
    historyLoop ⟨fun _ => .error "boom", fun _ _ => .error "x"⟩ sumFn
      "k" 0 1 (initParams cexCfg) [] [] 0 =
      (.error (.backend "error listing object versions: boom"), []) :=
  claim_C7_backend_error_aborts.1
    ⟨fun _ => .error "boom", fun _ _ => .error "x"⟩ sumFn "k" 0 0
    (initParams cexCfg) [] [] 0 "boom" rfl

/-- C8: versions whose object key is not exactly the archive's key are
skipped entirely: `History` never fetches their bytes (its outcome is
invariant under arbitrary changes to `get` on other keys) and never
includes them — concretely, a store holding sibling keys under the same
prefix yields only the archive key's bodies. -/
theorem claim_C8_exact_key_filter :
    (∀ (l : ListParams → Except String ListPage)
       (g g' : String → String → Except String Bytes)
       (sum : Bytes → String) (fuel : Nat) (st : S3State),
       (∀ vid, g st.cfg.key vid = g' st.cfg.key vid) →
       S3history ⟨l, g⟩ sum fuel st = S3history ⟨l, g'⟩ sum fuel st)
    ∧ (S3history (storeClient siblingStore 1000) sumFn 1
        (freshState cexCfg)).1 = .ok [[1]] :=
  ⟨S3history_congr_get, by decide⟩

/-- C8 witness. -/
theorem claim_C8_witness :
    S3history ⟨storeList siblingStore 1000, storeGet siblingStore⟩ sumFn 1
        (freshState cexCfg) =
      S3history ⟨storeList siblingStore 1000,
        fun k v => if k = "k" then storeGet siblingStore k v
          else .error "hidden"⟩ sumFn 1 (freshState cexCfg) :=
  claim_C8_exact_key_filter.1 (storeList siblingStore 1000)
    (storeGet siblingStore)
    (fun k v => if k = "k" then storeGet siblingStore k v
      else .error "hidden")
    sumFn 1 (freshState cexCfg) (fun vid => by simp [freshState, cexCfg])

set_option maxRecDepth 10000 in
/-- C1 (counterexample): after 101 puts of pairwise-distinct artifacts
on a fresh archive with unbounded configured max_versions, `History`
does not return the 101 artifacts in put order — the first `Put`'s
bootstrap permanently capped the instance at 100 versions, so only the
100 most recent come back (oldest first). -/
theorem claim_C1_counterexample :
    putsThenHistory sumFn cexCfg (cexBodies 101) ≠ .ok (cexBodies 101)
    ∧ putsThenHistory sumFn cexCfg (cexBodies 101) =
        .ok ((cexBodies 101).drop 1) := by
  constructor
  · decide
  · decide

/-- C1 (amended): for 1 ≤ N ≤ 100 puts with pairwise-distinct
fingerprints on a fresh archive (any configured max_versions — the first
put's bootstrap overwrites it with 100), a subsequent `History` returns
exactly those artifacts in the order they were put, oldest first, even
though the backend listing accumulated internally is newest-first. -/
theorem claim_C1_ordering (sum : Bytes → String) (cfg : S3Config)
    (bs : List Bytes) (hne : bs ≠ []) (hlen : bs.length ≤ 100)
    (hnd : (bs.map sum).Nodup) :
    putsThenHistory sum cfg bs = .ok bs :=
  putsThenHistory_eq sum cfg bs hne hlen hnd

/-- C1 witness. -/
theorem claim_C1_ordering_witness :
    putsThenHistory sumFn cexCfg [[1], [2], [3]] = .ok [[1], [2], [3]] :=
  claim_C1_ordering sumFn cexCfg [[1], [2], [3]] (by decide) (by decide)
    (by decide)

/-- C3: with max_versions k > 0 and a backend holding N > k distinct
versions of the archive key, `History` returns exactly k entries — the k
most recent, oldest-first among themselves — and the walker needs
exactly the pages that reach the cap: it succeeds already at the minimal
fuel (page-fetch budget) and identically at any larger fuel, fetching no
page beyond the one where the count reaches k. -/
theorem claim_C3_cap_enforcement (sum : Bytes → String)
    (bkt key rgn : String) (k : Nat) (all : List ObjVersion) (nid : Nat)
    (hk : 0 < k) (hN : k < all.length)
    (hkeys : ∀ v ∈ all, v.key = key)
    (hvids : (all.map ObjVersion.versionId).Nodup)
    (hsums : (sumsOf sum all).Nodup) :
    (S3history (storeClient ⟨all, nid⟩ 1000) sum
        ((k - 1) / min k 1000 + 1) ⟨⟨bkt, key, rgn, k⟩, [], false⟩).1 =
      .ok (bodiesOf (all.take k)).reverse
    ∧ (all.take k).length = k
    ∧ (∀ f, (k - 1) / min k 1000 + 1 ≤ f →
        (S3history (storeClient ⟨all, nid⟩ 1000) sum f
          ⟨⟨bkt, key, rgn, k⟩, [], false⟩).1 =
          .ok (bodiesOf (all.take k)).reverse) := by
  have hcap_eq : pageCap 1000
      (initParams ⟨bkt, key, rgn, k⟩).maxKeys = min k 1000 := by
    simp only [initParams]
    by_cases hlt : k < 1000
    · rw [if_pos ⟨hk, hlt⟩]
      simp [pageCap]
    · rw [if_neg (by omega)]
      simp only [pageCap]
      omega
  have hmain := historyLoop_store_cap sum key k 1000 nid
    (initParams ⟨bkt, key, rgn, k⟩).maxKeys all hkeys hvids hsums
    (by rw [hcap_eq]; omega) hk hN
    ((k - 1) / min k 1000 + 1) 0 (initParams ⟨bkt, key, rgn, k⟩)
    hk rfl rfl
    (by simp only [listRest, initParams, List.drop_zero]
        exact filter_keys_self key all hkeys)
    (by rw [hcap_eq]
        simp)
  simp only [List.take_zero, bodiesOf, sumsOf, List.map_nil,
    List.reverse_nil] at hmain
  have hS : S3history (storeClient ⟨all, nid⟩ 1000) sum
      ((k - 1) / min k 1000 + 1) ⟨⟨bkt, key, rgn, k⟩, [], false⟩ =
      (.ok ((all.take k).map ObjVersion.body).reverse,
       ⟨⟨bkt, key, rgn, k⟩,
        ((all.take k).map (fun it => sum it.body)).reverse, true⟩) := by
    rw [S3history]
    rw [show (⟨⟨bkt, key, rgn, k⟩, [], false⟩ : S3State).cfg.key =
      key from rfl]
    rw [show (⟨⟨bkt, key, rgn, k⟩, [], false⟩ : S3State).cfg.maxVersions =
      k from rfl]
    rw [hmain]
  refine ⟨by rw [hS]; rfl, ?_, ?_⟩
  · rw [List.length_take]
    omega
  · intro f hf
    rw [S3history_fuel_mono (storeClient ⟨all, nid⟩ 1000) sum
      ((k - 1) / min k 1000 + 1) ⟨⟨bkt, key, rgn, k⟩, [], false⟩ _ _
      (by simp) hS f hf]
    rfl

/-- C3 witness. -/
theorem claim_C3_witness :
    (S3history (storeClient ⟨[⟨"k", "a", [1]⟩, ⟨"k", "b", [2]⟩], 0⟩ 1000)
      sumFn 1 ⟨⟨"b", "k", "r", 1⟩, [], false⟩).1 = .ok [[1]] := by
  have h := claim_C3_cap_enforcement sumFn "b" "k" "r" 1
    [⟨"k", "a", [1]⟩, ⟨"k", "b", [2]⟩] 0 (by decide) (by decide)
    (by decide) (by decide) (by decide)
  exact h.1
